import Mathlib

/-!
# LSH command interpreter (`lsh.c`): embedding and verified properties

The development embeds the read / tokenize / dispatch / launch core of `lsh.c` and proves the
properties C1 to C10 of its specification, or the nearest statement that the code satisfies.

Conventions of the embedding

* A `char *` value is the list of memory cells from the pointer onwards.  The C string it
  denotes ends at the first NUL cell (`cstring`).
* A token (`Token`) is the content of a C string: the characters before its terminator.
* A `char **` block is a list of cells holding `Option Token`, `none` being the NULL pointer.
  The vector it denotes ends at the first NULL cell (`nullTerminated`); functions that take
  such a vector (`lsh_execute`, the handlers, `lsh_launch`) take the list of its tokens.
* Cells that were never written hold arbitrary values, supplied by a `junk` function of the
  cell index.  A store outside the allocated block has no defined result.
* In the reader the `int` counters `bufsize` and `position` are integers that wrap at 32 bits
  (`int32`).  A request to `realloc` that has wrapped to a negative `int` is refused, and the
  reader then ends the process with `lsh: allocation error`; every other request to `malloc`
  or `realloc` is taken to succeed.
* In the tokenizer the counters are natural numbers: they count tokens, and would leave the
  range of `int` only on a line of 2^31 - 64 tokens, longer than any line the reader returns.
* The answers of the operating system (`chdir`, `fork`, `execvp`, `waitpid`) and the state of
  the shared input come from an `Env` oracle; the effects of the process are recorded in a
  `World`.
-/

namespace Lsh

/-! ## Memory blocks -/

/-- The value `malloc(n)` of a fresh block of `n` cells with arbitrary content. -/
def malloc {α : Type} (junk : Nat → α) (n : Nat) : List α :=
  (List.range n).map junk

/-- The value `realloc(block, n)`: the old cells are kept, new cells are arbitrary. -/
def realloc {α : Type} (junk : Nat → α) (block : List α) (n : Nat) : List α :=
  block.take n ++ (List.range (n - block.length)).map (fun i => junk (block.length + i))

/-- The assignment `block[i] = v`; it is defined only inside the block. -/
def store {α : Type} (block : List α) (i : Nat) (v : α) : Option (List α) :=
  if i < block.length then some (block.set i v) else none

/-- The NUL character that terminates a C string. -/
def NUL : Char := '\x00'

/-- The C string denoted by a `char *`: the cells before the first NUL. -/
def cstring (cells : List Char) : List Char :=
  cells.takeWhile (fun c => c ≠ NUL)

/-- Content of a C string. -/
abbrev Token := List Char

/-- The vector denoted by a NULL-terminated `char **`: the entries before the first NULL. -/
def nullTerminated : List (Option Token) → List Token
  | some t :: rest => t :: nullTerminated rest
  | _ => []

/-! ## Line reader -/

/-- The constant `LSH_RL_BUFSIZE`. -/
def LSH_RL_BUFSIZE : Nat := 1024

/-- The value that an `int` holds after a computation whose exact result is `n`: 32 bits in
two's complement, so a result outside the range of `int` wraps around. -/
def int32 (n : Int) : Int :=
  (n + 2147483648) % 4294967296 - 2147483648

/-- The assignment `block[i] = v` for an `int` index; it is defined only inside the block. -/
def storeAt {α : Type} (block : List α) (i : Int) (v : α) : Option (List α) :=
  if 0 ≤ i then store block i.toNat v else none

/-- The value `realloc(block, n)` for an `int` size `n`.  Converted to `size_t`, a negative
`n` is a size above `PTRDIFF_MAX`, which the allocator refuses: the answer is NULL (`none`).
Every other request is taken to succeed. -/
def reallocInt {α : Type} (junk : Nat → α) (block : List α) (n : Int) : Option (List α) :=
  if n < 0 then none else some (realloc junk block n.toNat)

/-- Local variables of `lsh_read_line`, with the record of the stores performed so far:
each entry is the index written and the value of `bufsize` at that moment. -/
structure ReadState where
  bufsize : Int
  position : Int
  buffer : List Char
  writes : List (Int × Int)

/-- How a call of the reader ends: it returns a value and leaves the rest of the stream
unread, or `realloc` answers NULL, upon which the reader writes `lsh: allocation error` to the
error channel and the process exits with `EXIT_FAILURE`, or a store outside the block leaves
the behaviour undefined. -/
inductive Read (α : Type)
  | returned (value : α) (unread : List Char)
  | allocationError (unread : List Char)
  | undefined

/-- Applies a function to the value returned by the reader. -/
def Read.map {α β : Type} (f : α → β) : Read α → Read β
  | .returned value unread => .returned (f value) unread
  | .allocationError unread => .allocationError unread
  | .undefined => .undefined

/-- The `while (1)` loop of `lsh_read_line`, one iteration per character delivered by
`getchar`; an empty stream makes `getchar` answer `EOF`. -/
def lsh_read_line_loop (junk : Nat → Char) : List Char → ReadState → Read ReadState
  | [], st =>
    -- c == EOF
    match storeAt st.buffer st.position NUL with
    | none => .undefined
    | some b =>
      .returned { st with buffer := b, writes := st.writes ++ [(st.position, st.bufsize)] } []
  | c :: rest, st =>
    if c = '\n' then
      match storeAt st.buffer st.position NUL with
      | none => .undefined
      | some b =>
        .returned { st with buffer := b, writes := st.writes ++ [(st.position, st.bufsize)] }
          rest
    else
      match storeAt st.buffer st.position c with
      | none => .undefined
      | some b =>
        let writes := st.writes ++ [(st.position, st.bufsize)]
        let position := int32 (st.position + 1)
        if position ≥ st.bufsize then
          let bufsize := int32 (st.bufsize + LSH_RL_BUFSIZE)
          match reallocInt junk b bufsize with
          | none => .allocationError rest
          | some b1 =>
            lsh_read_line_loop junk rest
              { bufsize := bufsize, position := position, buffer := b1, writes := writes }
        else
          lsh_read_line_loop junk rest
            { bufsize := st.bufsize, position := position, buffer := b, writes := writes }

/-- The function `lsh_read_line` with its final local state. -/
def lsh_read_line_run (junk : Nat → Char) (stdin : List Char) : Read ReadState :=
  lsh_read_line_loop junk stdin
    { bufsize := LSH_RL_BUFSIZE, position := 0,
      buffer := malloc junk LSH_RL_BUFSIZE, writes := [] }

/-- The function `lsh_read_line`: the returned buffer and the unread rest of the stream. -/
def lsh_read_line (junk : Nat → Char) (stdin : List Char) : Read (List Char) :=
  (lsh_read_line_run junk stdin).map fun st => st.buffer

/-- The number of characters of a line from which `bufsize` leaves the range of `int`:
2^31 - 1024. -/
def LINE_LIMIT : Nat := 2147482624

/-! ## Tokenizer -/

/-- The constant `LSH_TOK_BUFSIZE`. -/
def LSH_TOK_BUFSIZE : Nat := 64

/-- The characters of `LSH_TOK_DELIM`: space, tab, carriage return, line feed, bell. -/
def LSH_TOK_DELIM : List Char := [' ', '\t', '\r', '\n', '\x07']

/-- The library function `strtok`, from the position `p` (the argument, or the position saved
by the previous call).  Leading delimiters are skipped; at the end of the string the answer is
NULL; otherwise the token runs up to the next delimiter, which is overwritten by NUL, or up to
the end of the string.  The answer is the token and the position saved for the next call. -/
def strtok (delim : List Char) (p : List Char) : Option (Token × List Char) :=
  match p.dropWhile (fun c => decide (c ∈ delim)) with
  | [] => none
  | c :: q =>
    if c = NUL then none
    else
      let isTok := fun (x : Char) => decide (x ≠ NUL ∧ x ∉ delim)
      let tok := (c :: q).takeWhile isTok
      match (c :: q).dropWhile isTok with
      | [] => some (tok, [])
      | d :: r => if d = NUL then some (tok, d :: r) else some (tok, r)

/-- Local variables of `lsh_split_line`, with the record of the stores performed so far:
each entry is the index written and the value of `bufsize` at that moment. -/
structure SplitState where
  bufsize : Nat
  position : Nat
  tokens : List (Option Token)
  writes : List (Nat × Nat)

/-- The `while (token != NULL)` loop of `lsh_split_line` followed by the final store of the
terminator; `token` is the last answer of `strtok` and `saved` its saved position.  The first
argument bounds the number of iterations. -/
def lsh_split_line_loop (junk : Nat → Option Token) :
    Nat → Option Token → List Char → SplitState → Option SplitState
  | _, none, _, st =>
    (store st.tokens st.position none).map fun t =>
      { st with tokens := t, writes := st.writes ++ [(st.position, st.bufsize)] }
  | 0, some _, _, _ => none
  | n + 1, some token, saved, st =>
    match store st.tokens st.position (some token) with
    | none => none
    | some t =>
      let writes := st.writes ++ [(st.position, st.bufsize)]
      let position := st.position + 1
      let st1 : SplitState :=
        if position ≥ st.bufsize then
          { bufsize := st.bufsize + LSH_TOK_BUFSIZE, position := position,
            tokens := realloc junk t (st.bufsize + LSH_TOK_BUFSIZE), writes := writes }
        else
          { bufsize := st.bufsize, position := position, tokens := t, writes := writes }
      match strtok LSH_TOK_DELIM saved with
      | none => lsh_split_line_loop junk n none [] st1
      | some (token1, saved1) => lsh_split_line_loop junk n (some token1) saved1 st1

/-- The function `lsh_split_line` with its final local state.  Every token consumes at least
one character of the line, so the length of the line bounds the number of iterations. -/
def lsh_split_line_run (junk : Nat → Option Token) (line : List Char) : Option SplitState :=
  let st : SplitState :=
    { bufsize := LSH_TOK_BUFSIZE, position := 0,
      tokens := malloc junk LSH_TOK_BUFSIZE, writes := [] }
  match strtok LSH_TOK_DELIM line with
  | none => lsh_split_line_loop junk line.length none [] st
  | some (token, saved) => lsh_split_line_loop junk line.length (some token) saved st

/-- The function `lsh_split_line`: the returned block of token pointers. -/
def lsh_split_line (junk : Nat → Option Token) (line : List Char) :
    Option (List (Option Token)) :=
  (lsh_split_line_run junk line).map fun st => st.tokens

/-- The tokens of a line in the words of the specification: the line is split at every
delimiter character and the empty fields are discarded. -/
def specTokens (line : List Char) : List Token :=
  (line.splitOnP (fun c => decide (c ∈ LSH_TOK_DELIM))).filter (fun t => !t.isEmpty)

/-! ## The process and its environment -/

/-- The status reported by `waitpid(pid, &status, WUNTRACED)`. -/
inductive WaitStatus
  | exited (code : Nat)
  | signaled (sig : Nat)
  | stopped (sig : Nat)
  deriving DecidableEq

/-- The test `WIFEXITED(status)`. -/
def WIFEXITED : WaitStatus → Bool
  | .exited _ => true
  | _ => false

/-- The test `WIFSIGNALED(status)`. -/
def WIFSIGNALED : WaitStatus → Bool
  | .signaled _ => true
  | _ => false

/-- An entry of the trace: a handler or the launcher is entered with its arguments, or a
system call is made; `waitpid` is recorded with the status it reports, if it answers. -/
inductive Event
  | enter (fn : String) (args : List Token)
  | chdir (path : Token)
  | fork
  | execvp (file : Option Token) (argv : List Token)
  | waitpid (pid : Nat) (status : Option WaitStatus)
  deriving DecidableEq

/-- The state of the process that the interpreter can see or change: the unread input, what
was written to the output and error channels (one entry per write), the working directory,
and the trace of handlers entered and system calls made. -/
structure World where
  stdin : List Char
  stdout : List String
  stderr : List String
  cwd : List Char
  trace : List Event
  deriving DecidableEq

/-- The answer of `fork()`: zero in the child, negative on failure (with `errno`), and the
identifier of the child in the parent, together with the statuses that the successive calls of
`waitpid` report for that child. -/
inductive ForkResult
  | child
  | failed (errno : Nat)
  | parent (pid : Nat) (statuses : List WaitStatus)

/-- The answers of the operating system and the content of uninitialised memory.  The
field `unread` is the input that is unread when the interpreter reads its next line: the
children launched before share the input and may have read from it or moved its offset. -/
structure Env where
  junkChar : Nat → Char
  junkPtr : Nat → Option Token
  strerror : Nat → String
  chdir : World → Token → Except Nat (List Char)
  fork : World → ForkResult
  execvp : World → Option Token → List Token → Option Nat
  unread : World → List Char

/-- How a call ends: it returns a value, the process exits, `execvp` replaces the program
image, `waitpid` never answers, or a store outside its block leaves the behaviour undefined. -/
inductive Outcome
  | returned (status : Int) (w : World)
  | exited (code : Int) (w : World)
  | replaced (file : Option Token) (argv : List Token) (w : World)
  | blocked (w : World)
  | undefined

/-- The constant `EXIT_FAILURE`. -/
def EXIT_FAILURE : Int := 1

/-- A write to the output channel (`printf`). -/
def World.printf (w : World) (s : String) : World :=
  { w with stdout := w.stdout ++ [s] }

/-- A write to the error channel (`fprintf(stderr, ...)`). -/
def World.eprintf (w : World) (s : String) : World :=
  { w with stderr := w.stderr ++ [s] }

/-- The call `perror(s)` after a failure with the given `errno`. -/
def World.perror (env : Env) (w : World) (s : String) (errno : Nat) : World :=
  w.eprintf (s ++ ": " ++ env.strerror errno ++ "\n")

/-- Appends an entry to the trace. -/
def World.log (w : World) (e : Event) : World :=
  { w with trace := w.trace ++ [e] }

/-- The library function `strcmp` on the contents of two strings: zero when they are equal,
negative or positive according to the first place where they differ. -/
def strcmp : List Char → List Char → Int
  | [], [] => 0
  | [], _ :: _ => -1
  | _ :: _, [] => 1
  | a :: as, b :: bs => if a = b then strcmp as bs else if a.toNat < b.toNat then -1 else 1

/-! ## Builtin commands -/

/-- The table `builtin_str`. -/
def builtin_str : List String := ["cd", "help", "exit"]

/-- The function `lsh_num_builtins`. -/
def lsh_num_builtins : Nat := builtin_str.length

/-- The function `lsh_cd`. -/
def lsh_cd (env : Env) (args : List Token) (w : World) : Outcome :=
  let w0 := w.log (.enter "lsh_cd" args)
  match args.get? 1 with
  | none => .returned 1 (w0.eprintf "lsh: expected argument to \"cd\"\n")
  | some dir =>
    let w1 := w0.log (.chdir dir)
    match env.chdir w dir with
    | .ok d => .returned 1 { w1 with cwd := d }
    | .error errno => .returned 1 (w1.perror env "lsh" errno)

/-- The `for` loop of `lsh_help`. -/
def lsh_help_for : List String → World → World
  | [], w => w
  | name :: rest, w => lsh_help_for rest (w.printf ("  " ++ name ++ "\n"))

/-- The function `lsh_help`. -/
def lsh_help (_env : Env) (args : List Token) (w : World) : Outcome :=
  let w0 := w.log (.enter "lsh_help" args)
  let w1 := w0.printf "Stephen Brennan's LSH\n"
  let w2 := w1.printf "Type program names and arguments, and hit enter.\n"
  let w3 := w2.printf "The following are built in:\n"
  let w4 := lsh_help_for builtin_str w3
  .returned 1 (w4.printf "Use the man command for information on other programs.\n")

/-- The function `lsh_exit`. -/
def lsh_exit (_env : Env) (args : List Token) (w : World) : Outcome :=
  .returned 0 (w.log (.enter "lsh_exit" args))

/-- The table `builtin_func`. -/
def builtin_func : List (Env → List Token → World → Outcome) :=
  [lsh_cd, lsh_help, lsh_exit]

/-! ## Process launcher -/

/-- The `do ... while` loop of the parent in `lsh_launch`, on the statuses still to be
reported for the child; when none is left `waitpid` never answers. -/
def lsh_launch_wait (pid : Nat) : List WaitStatus → World → Outcome
  | [], w => .blocked (w.log (.waitpid pid none))
  | status :: rest, w =>
    let w1 := w.log (.waitpid pid (some status))
    if !WIFEXITED status && !WIFSIGNALED status then lsh_launch_wait pid rest w1
    else .returned 1 w1

/-- The function `lsh_launch`. -/
def lsh_launch (env : Env) (args : List Token) (w : World) : Outcome :=
  let w0 := w.log (.enter "lsh_launch" args)
  let w1 := w0.log .fork
  match env.fork w with
  | .child =>
    let w2 := w1.log (.execvp args.head? args)
    match env.execvp w args.head? args with
    | none => .replaced args.head? args w2
    | some errno => .exited EXIT_FAILURE (w2.perror env "lsh" errno)
  | .failed errno => .returned 1 (w1.perror env "lsh" errno)
  | .parent pid statuses => lsh_launch_wait pid statuses w1

/-! ## Dispatcher -/

/-- The `for` loop of `lsh_execute` over the entries of the two tables that are still to be
compared, followed by the call of the launcher. -/
def lsh_execute_for (env : Env) (args : List Token) (cmd : Token) (w : World) :
    List (String × (Env → List Token → World → Outcome)) → Outcome
  | [] => lsh_launch env args w
  | (name, func) :: rest =>
    if strcmp cmd name.toList = 0 then func env args w
    else lsh_execute_for env args cmd w rest

/-- The function `lsh_execute`. -/
def lsh_execute (env : Env) (args : List Token) (w : World) : Outcome :=
  match args with
  | [] => .returned 1 w
  | cmd :: _ => lsh_execute_for env args cmd w (builtin_str.zip builtin_func)

/-! ## Interpreter loop -/

/-- The function `flush`. -/
def flush (w : World) : Int × World := (1, w)

/-- The states of the interpreter loop; `left` is a process that left the loop inside an
iteration. -/
inductive LoopState
  | running (w : World)
  | stopped (w : World)
  | left (o : Outcome)

/-- One iteration of the `do ... while (status)` loop of `lsh_loop`. -/
def lsh_loop_body (env : Env) (w : World) : LoopState :=
  let w1 := w.printf "> "
  let w2 := (flush w1).2
  match lsh_read_line env.junkChar (env.unread w2) with
  | .undefined => .left .undefined
  | .allocationError unread =>
    .left (.exited EXIT_FAILURE ({ w2 with stdin := unread }.eprintf "lsh: allocation error\n"))
  | .returned line unread =>
    let w3 := { w2 with stdin := unread }
    match lsh_split_line env.junkPtr line with
    | none => .left .undefined
    | some args =>
      match lsh_execute env (nullTerminated args) w3 with
      | .returned status w4 => if status ≠ 0 then .running w4 else .stopped w4
      | o => .left o

/-- A step of the interpreter: an iteration when it is running. -/
def lsh_loop_step (env : Env) : LoopState → LoopState
  | .running w => lsh_loop_body env w
  | s => s

/-- The function `lsh_loop` cut after `n` iterations. -/
def lsh_loop (env : Env) : Nat → LoopState → LoopState
  | 0, s => s
  | n + 1, s => lsh_loop env n (lsh_loop_step env s)

/-! ## Observations on outcomes, and sample environments -/

/-- The state of the process at the end of a call, when there is one. -/
def Outcome.world : Outcome → Option World
  | .returned _ w => some w
  | .exited _ w => some w
  | .replaced _ _ w => some w
  | .blocked w => some w
  | .undefined => none

/-- The status is one that ends the wait of `lsh_launch`: the child exited or was killed by a
signal. -/
def WaitStatus.final (s : WaitStatus) : Bool :=
  WIFEXITED s || WIFSIGNALED s

/-- The answer of `fork` is one given to the interpreter itself, not to a child, and when a
child was created one of the statuses reported for it is final. -/
def ForkResult.completes : ForkResult → Bool
  | .child => false
  | .failed _ => true
  | .parent _ statuses => statuses.any WaitStatus.final

/-- The events of a trace that are entries into a handler or into the launcher. -/
def entries (trace : List Event) : List Event :=
  trace.filter fun e => match e with
    | .enter _ _ => true
    | _ => false

/-- An environment in which every directory change fails with error 2, every launched program
is absent (its child exits with status 1 and is reported at once) and leaves the input as it
is, and fresh memory holds the letter `z` and null pointers. -/
def absentEnv : Env where
  junkChar := fun _ => 'z'
  junkPtr := fun _ => none
  strerror := fun _ => "No such file or directory"
  chdir := fun _ _ => .error 2
  fork := fun _ => .parent 7 [.exited 1]
  execvp := fun _ _ _ => some 2
  unread := fun w => w.stdin

/-- An environment in which every launched program reads the shared input to its end and then
exits with status 0: once a launch is in the trace nothing is left to read. -/
def greedyEnv : Env where
  junkChar := fun _ => 'z'
  junkPtr := fun _ => none
  strerror := fun _ => "No such file or directory"
  chdir := fun _ _ => .error 2
  fork := fun _ => .parent 7 [.exited 0]
  execvp := fun _ _ _ => none
  unread := fun w => if w.trace = [] then w.stdin else []

/-- A process that has read and written nothing yet. -/
def freshWorld (stdin : List Char) : World where
  stdin := stdin
  stdout := []
  stderr := []
  cwd := "/".toList
  trace := []

/-- The part of the input before the first line feed. -/
def firstLine (stdin : List Char) : List Char :=
  stdin.takeWhile (fun c => c ≠ '\n')

/-- The part of the input after the first line feed. -/
def afterLine (stdin : List Char) : List Char :=
  (stdin.dropWhile (fun c => c ≠ '\n')).tail

/-- The tokens of the first line of the input, as the reader hands it to the tokenizer. -/
def lineTokens (stdin : List Char) : List Token :=
  specTokens (cstring (firstLine stdin))

/-! ## Notions used to state the properties -/

/-- The stores of a run that starts at index `start` and writes `count` cells, one after the
other, each paired with the capacity `unit * (index / unit + 1)`. -/
def storesFrom (unit start count : Nat) : List (Nat × Nat) :=
  (List.range' start count).map (fun p => (p, unit * (p / unit + 1)))

/-- The stores of a run of the reader that starts at index `start` and writes `count` cells,
one after the other, each paired with the capacity `1024 * (index / 1024 + 1)`. -/
def readStores (start : Int) (count : Nat) : List (Int × Int) :=
  (List.range count).map fun (i : Nat) =>
    (start + (i : Int), 1024 * ((start + (i : Int)) / 1024 + 1))

/-- The invariant of the loop of `lsh_read_line`. -/
structure ReadState.Inv (st : ReadState) : Prop where
  nonneg : 0 ≤ st.position
  in_block : st.position < st.bufsize
  capacity : st.bufsize = 1024 * (st.position / 1024 + 1)
  in_range : st.bufsize ≤ 2147482624
  length_eq : (st.buffer.length : Int) = st.bufsize

/-- The invariant of the loop of `lsh_split_line`. -/
structure SplitState.Inv (st : SplitState) : Prop where
  length_eq : st.tokens.length = st.bufsize
  in_block : st.position < st.bufsize
  capacity : st.bufsize = 64 * (st.position / 64 + 1)

/-- The tokens that the loop of `lsh_split_line` still has to store. -/
def pending : Option Token → List Char → List Token
  | none, _ => []
  | some t, saved => t :: specTokens (cstring saved)

/-! ## Memory blocks: lemmas -/

theorem store_eq_some {α : Type} (block : List α) (i : Nat) (v : α) (h : i < block.length) :
    store block i v = some (block.set i v) := by
  simp [store, h]

theorem malloc_length {α : Type} (junk : Nat → α) (n : Nat) : (malloc junk n).length = n := by
  simp [malloc]

theorem realloc_length {α : Type} (junk : Nat → α) (block : List α) (n : Nat)
    (h : block.length ≤ n) : (realloc junk block n).length = n := by
  simp [realloc]
  omega

theorem realloc_take {α : Type} (junk : Nat → α) (block : List α) (n k : Nat)
    (h : block.length ≤ n) (hk : k ≤ block.length) :
    (realloc junk block n).take k = block.take k := by
  unfold realloc
  rw [List.take_of_length_le h, List.take_append_of_le_length hk]

theorem set_take_succ {α : Type} (block : List α) (i : Nat) (v : α) (h : i < block.length) :
    (block.set i v).take (i + 1) = block.take i ++ [v] := by
  induction block generalizing i with
  | nil => simp at h
  | cons a l ih =>
    cases i with
    | zero => simp
    | succ j =>
      have hj : j < l.length := by simpa using h
      simp [List.set, ih j hj]

theorem set_take_self {α : Type} (block : List α) (i : Nat) (v : α) :
    (block.set i v).take i = block.take i := by
  induction block generalizing i with
  | nil => simp
  | cons a l ih =>
    cases i with
    | zero => simp
    | succ j => simp [List.set, ih j]

theorem block_split {α : Type} (block : List α) (k : Nat) (v : α)
    (h : block.get? k = some v) : block = block.take k ++ v :: block.drop (k + 1) := by
  induction block generalizing k with
  | nil => simp at h
  | cons a l ih =>
    cases k with
    | zero => simp at h; simp [h]
    | succ j =>
      have hj : l.get? j = some v := by simpa using h
      have := ih j hj
      simp
      exact this

/-! ## Line reader: lemmas -/

theorem storesFrom_succ (unit start count : Nat) :
    storesFrom unit start (count + 1)
      = (start, unit * (start / unit + 1)) :: storesFrom unit (start + 1) count := by
  simp [storesFrom, List.range', List.range'_succ]

theorem firstLine_nil : firstLine [] = [] := rfl

theorem afterLine_nil : afterLine [] = [] := rfl

theorem firstLine_cons (c : Char) (rest : List Char) :
    firstLine (c :: rest) = if c = '\n' then [] else c :: firstLine rest := by
  unfold firstLine
  by_cases h : c = '\n' <;> simp [List.takeWhile, h]

theorem afterLine_cons (c : Char) (rest : List Char) :
    afterLine (c :: rest) = if c = '\n' then rest else afterLine rest := by
  unfold afterLine
  by_cases h : c = '\n' <;> simp [List.dropWhile, h]

theorem int32_of_small (n : Int) (h0 : 0 ≤ n) (h1 : n < 2147483648) : int32 n = n := by
  unfold int32
  omega

theorem storeAt_eq_some {α : Type} (block : List α) (i : Int) (v : α) (h0 : 0 ≤ i)
    (h : i.toNat < block.length) : storeAt block i v = some (block.set i.toNat v) := by
  simp [storeAt, h0, store, h]

theorem readStores_succ (start : Int) (count : Nat) :
    readStores start (count + 1)
      = (start, 1024 * (start / 1024 + 1)) :: readStores (start + 1) count := by
  unfold readStores
  rw [List.range_succ_eq_map, List.map_cons, List.map_map]
  simp only [Nat.cast_zero, add_zero, List.cons.injEq, true_and]
  apply List.map_congr_left
  intro i _
  have h : start + ((i + 1 : Nat) : Int) = start + 1 + (i : Int) := by push_cast; ring
  simp only [Function.comp, Nat.succ_eq_add_one, h]

theorem readStores_one (start : Int) :
    readStores start (0 + 1) = [(start, 1024 * (start / 1024 + 1))] := by
  rw [readStores_succ]
  rfl

theorem ReadState.Inv.index_lt {st : ReadState} (h : st.Inv) :
    st.position.toNat < st.buffer.length := by
  have h1 := h.nonneg
  have h2 := h.in_block
  have h3 := h.length_eq
  omega

/-- The state after a character is stored and the block, if full, has grown, as long as
`bufsize` stays within the range of `int`. -/
theorem ReadState.Inv.advance (junk : Nat → Char) {st : ReadState} (h : st.Inv) (c : Char)
    (hroom : st.position + 1 < 2147482624) :
    ∃ st1 : ReadState, st1.Inv
      ∧ st1.position = st.position + 1
      ∧ st1.buffer.take (st.position.toNat + 1) = st.buffer.take st.position.toNat ++ [c]
      ∧ st1.writes = st.writes ++ [(st.position, 1024 * (st.position / 1024 + 1))]
      ∧ ∀ rest, lsh_read_line_loop junk (c :: rest) st
          = if c = '\n' then lsh_read_line_loop junk (c :: rest) st
            else lsh_read_line_loop junk rest st1 := by
  have h0 := h.nonneg
  have hin := h.in_block
  have hcap := h.capacity
  have hrange := h.in_range
  have hlen := h.length_eq
  have hlt := h.index_lt
  have hpos : int32 (st.position + 1) = st.position + 1 :=
    int32_of_small _ (by omega) (by omega)
  by_cases hfull : st.position + 1 ≥ st.bufsize
  · have hbuf : int32 (st.bufsize + (LSH_RL_BUFSIZE : Nat)) = st.bufsize + 1024 := by
      simp only [LSH_RL_BUFSIZE, Nat.cast_ofNat]
      exact int32_of_small _ (by omega) (by omega)
    have hnn : ¬ (st.bufsize + 1024 < 0) := by omega
    have hgrow : (st.buffer.set st.position.toNat c).length ≤ (st.bufsize + 1024).toNat := by
      rw [List.length_set]; omega
    refine ⟨{ bufsize := st.bufsize + 1024, position := st.position + 1,
              buffer := realloc junk (st.buffer.set st.position.toNat c)
                (st.bufsize + 1024).toNat,
              writes := st.writes ++ [(st.position, st.bufsize)] }, ⟨?_, ?_, ?_, ?_, ?_⟩,
            rfl, ?_, ?_, ?_⟩
    · show 0 ≤ st.position + 1
      omega
    · show st.position + 1 < st.bufsize + 1024
      omega
    · show st.bufsize + 1024 = 1024 * ((st.position + 1) / 1024 + 1)
      omega
    · show st.bufsize + 1024 ≤ 2147482624
      omega
    · dsimp only
      rw [realloc_length junk _ _ hgrow]
      omega
    · dsimp only
      rw [realloc_take junk _ _ _ hgrow (by rw [List.length_set]; omega),
        set_take_succ _ _ _ hlt]
    · dsimp only
      rw [← hcap]
    · intro rest
      by_cases hc : c = '\n'
      · rw [if_pos hc]
      · rw [if_neg hc]
        simp only [lsh_read_line_loop, hc, if_false, storeAt_eq_some _ _ _ h0 hlt, hpos, hbuf,
          hfull, if_true, reallocInt, hnn]
  · refine ⟨{ bufsize := st.bufsize, position := st.position + 1,
              buffer := st.buffer.set st.position.toNat c,
              writes := st.writes ++ [(st.position, st.bufsize)] }, ⟨?_, ?_, ?_, ?_, ?_⟩,
            rfl, ?_, ?_, ?_⟩
    · show 0 ≤ st.position + 1
      omega
    · show st.position + 1 < st.bufsize
      omega
    · show st.bufsize = 1024 * ((st.position + 1) / 1024 + 1)
      omega
    · exact hrange
    · dsimp only
      rw [List.length_set]
      exact hlen
    · dsimp only
      rw [set_take_succ _ _ _ hlt]
    · dsimp only
      rw [← hcap]
    · intro rest
      by_cases hc : c = '\n'
      · rw [if_pos hc]
      · rw [if_neg hc]
        simp only [lsh_read_line_loop, hc, if_false, storeAt_eq_some _ _ _ h0 hlt, hpos,
          hfull]

/-- The end of a line, at a line feed or at the end of the stream: the terminator is stored
and the buffer returned. -/
theorem ReadState.Inv.finish (junk : Nat → Char) {st : ReadState} (h : st.Inv)
    (stdin : List Char) (hend : firstLine stdin = []) :
    ∃ st1 : ReadState, lsh_read_line_loop junk stdin st = .returned st1 (afterLine stdin)
      ∧ st1.position = st.position
      ∧ st1.buffer.take st.position.toNat = st.buffer.take st.position.toNat
      ∧ st1.buffer.get? st.position.toNat = some NUL
      ∧ st1.writes = st.writes ++ [(st.position, 1024 * (st.position / 1024 + 1))] := by
  have h0 := h.nonneg
  have hlt := h.index_lt
  have hcap := h.capacity
  refine ⟨{ st with buffer := st.buffer.set st.position.toNat NUL,
                    writes := st.writes ++ [(st.position, st.bufsize)] }, ?_, rfl, ?_, ?_, ?_⟩
  · cases stdin with
    | nil =>
      simp only [lsh_read_line_loop, storeAt_eq_some _ _ _ h0 hlt, afterLine_nil]
    | cons c rest =>
      have hc : c = '\n' := by
        by_contra hne
        rw [firstLine_cons, if_neg hne] at hend
        exact List.cons_ne_nil _ _ hend
      simp only [lsh_read_line_loop, hc, if_true, storeAt_eq_some _ _ _ h0 hlt, afterLine_cons]
  · exact set_take_self _ _ _
  · simp [hlt]
  · dsimp only
    rw [← hcap]

theorem lsh_read_line_loop_spec (junk : Nat → Char) (stdin : List Char) :
    ∀ st : ReadState, st.Inv → st.position + (firstLine stdin).length < 2147482624 →
      ∃ st1 : ReadState, lsh_read_line_loop junk stdin st = .returned st1 (afterLine stdin)
        ∧ st1.position = st.position + (firstLine stdin).length
        ∧ st1.buffer.take st1.position.toNat
            = st.buffer.take st.position.toNat ++ firstLine stdin
        ∧ st1.buffer.get? st1.position.toNat = some NUL
        ∧ st1.writes = st.writes ++ readStores st.position ((firstLine stdin).length + 1) := by
  induction stdin with
  | nil =>
    intro st hst _
    obtain ⟨st1, h1, h2, h3, h4, h5⟩ := hst.finish junk [] firstLine_nil
    refine ⟨st1, h1, ?_, ?_, ?_, ?_⟩
    · simp [firstLine_nil, h2]
    · rw [h2, h3]; simp [firstLine_nil]
    · rw [h2]; exact h4
    · rw [h5, firstLine_nil, List.length_nil, readStores_one]
  | cons c rest ih =>
    intro st hst hroom
    by_cases hc : c = '\n'
    · have hend : firstLine (c :: rest) = [] := by rw [firstLine_cons, if_pos hc]
      obtain ⟨st1, h1, h2, h3, h4, h5⟩ := hst.finish junk (c :: rest) hend
      refine ⟨st1, h1, ?_, ?_, ?_, ?_⟩
      · simp [hend, h2]
      · rw [h2, h3, hend]; simp
      · rw [h2]; exact h4
      · rw [h5, hend, List.length_nil, readStores_one]
    · have hfl : firstLine (c :: rest) = c :: firstLine rest := by
        rw [firstLine_cons, if_neg hc]
      have hal : afterLine (c :: rest) = afterLine rest := by
        rw [afterLine_cons, if_neg hc]
      rw [hfl, List.length_cons] at hroom
      push_cast at hroom
      obtain ⟨st1, hinv, hp, ht, hw, hstep⟩ := hst.advance junk c (by omega)
      obtain ⟨st2, k1, k2, k3, k4, k5⟩ := ih st1 hinv (by rw [hp]; omega)
      have h0 := hst.nonneg
      have hto : st1.position.toNat = st.position.toNat + 1 := by rw [hp]; omega
      refine ⟨st2, ?_, ?_, ?_, k4, ?_⟩
      · rw [hstep rest, if_neg hc, hal]
        exact k1
      · rw [k2, hp, hfl, List.length_cons]
        push_cast
        ring
      · rw [k3, hto, ht, hfl]
        simp
      · rw [k5, hw, hp, hfl, List.length_cons, readStores_succ st.position]
        simp

/-- A line of `LINE_LIMIT` characters or more: when the character at index 2^31 - 1025 has
been stored, `bufsize` wraps, `realloc` refuses and the reader ends the process. -/
theorem lsh_read_line_loop_overflow (junk : Nat → Char) (stdin : List Char) :
    ∀ st : ReadState, st.Inv → 2147482624 ≤ st.position + (firstLine stdin).length →
      lsh_read_line_loop junk stdin st
        = .allocationError (stdin.drop (2147482624 - st.position).toNat) := by
  induction stdin with
  | nil =>
    intro st hst hlong
    have h1 := hst.in_block
    have h2 := hst.in_range
    simp only [firstLine_nil, List.length_nil, Nat.cast_zero, add_zero] at hlong
    omega
  | cons c rest ih =>
    intro st hst hlong
    have h0 := hst.nonneg
    have hin := hst.in_block
    have hcap := hst.capacity
    have hrange := hst.in_range
    have hlt := hst.index_lt
    by_cases hc : c = '\n'
    · rw [firstLine_cons, if_pos hc] at hlong
      simp only [List.length_nil, Nat.cast_zero, add_zero] at hlong
      omega
    · rw [firstLine_cons, if_neg hc, List.length_cons] at hlong
      push_cast at hlong
      have hpos : int32 (st.position + 1) = st.position + 1 :=
        int32_of_small _ (by omega) (by omega)
      by_cases hlast : st.position + 1 = 2147482624
      · have hfull : st.position + 1 ≥ st.bufsize := by omega
        have hb : st.bufsize = 2147482624 := by omega
        have hwrap : int32 (st.bufsize + (LSH_RL_BUFSIZE : Nat)) < 0 := by
          simp only [LSH_RL_BUFSIZE, Nat.cast_ofNat, int32, hb]
          decide
        have hdrop : (2147482624 - st.position).toNat = 1 := by omega
        simp only [lsh_read_line_loop, hc, if_false, storeAt_eq_some _ _ _ h0 hlt, hpos,
          hfull, if_true, reallocInt, hwrap, hdrop, List.drop_succ_cons, List.drop_zero]
      · obtain ⟨st1, hinv, hp, _, _, hstep⟩ := hst.advance junk c (by omega)
        have hdrop : (2147482624 - st.position).toNat
            = (2147482624 - st1.position).toNat + 1 := by rw [hp]; omega
        rw [hstep rest, if_neg hc, ih st1 hinv (by rw [hp]; omega), hdrop,
          List.drop_succ_cons]

/-! ## Tokenizer: lemmas -/

theorem NUL_not_delim : NUL ∉ LSH_TOK_DELIM := by decide

theorem cstring_nil : cstring [] = [] := rfl

theorem cstring_NUL_cons (r : List Char) : cstring (NUL :: r) = [] := by
  simp [cstring]

theorem cstring_cons_ne (c : Char) (r : List Char) (h : c ≠ NUL) :
    cstring (c :: r) = c :: cstring r := by
  simp [cstring, h]

theorem cstring_append_of_ne (a b : List Char) (h : ∀ x ∈ a, x ≠ NUL) :
    cstring (a ++ b) = a ++ cstring b := by
  induction a with
  | nil => rfl
  | cons x l ih =>
    have hx : x ≠ NUL := h x (List.mem_cons_self _ _)
    rw [List.cons_append, cstring_cons_ne _ _ hx, ih (fun y hy => h y (List.mem_cons_of_mem _ hy))]
    rfl

theorem cstring_of_ne (a : List Char) (h : NUL ∉ a) : cstring a = a := by
  have := cstring_append_of_ne a [] (fun x hx hxn => h (hxn ▸ hx))
  simpa [cstring_nil] using this

theorem specTokens_nil : specTokens [] = [] := by
  simp [specTokens]

theorem specTokens_delim_cons (d : Char) (l : List Char) (hd : d ∈ LSH_TOK_DELIM) :
    specTokens (d :: l) = specTokens l := by
  simp [specTokens, hd]

theorem specTokens_delims_append (ds l : List Char) (h : ∀ x ∈ ds, x ∈ LSH_TOK_DELIM) :
    specTokens (ds ++ l) = specTokens l := by
  induction ds with
  | nil => rfl
  | cons d r ih =>
    rw [List.cons_append, specTokens_delim_cons _ _ (h d (List.mem_cons_self _ _)),
      ih (fun y hy => h y (List.mem_cons_of_mem _ hy))]

theorem specTokens_single (t : List Char) (ht : t ≠ []) (h : ∀ x ∈ t, x ∉ LSH_TOK_DELIM) :
    specTokens t = [t] := by
  unfold specTokens
  rw [List.splitOnP_eq_single _ t (fun x hx => by simpa using h x hx)]
  cases t with
  | nil => exact absurd rfl ht
  | cons a l => simp

theorem specTokens_token_append (t : List Char) (d : Char) (l : List Char) (ht : t ≠ [])
    (h : ∀ x ∈ t, x ∉ LSH_TOK_DELIM) (hd : d ∈ LSH_TOK_DELIM) :
    specTokens (t ++ d :: l) = t :: specTokens l := by
  unfold specTokens
  rw [List.splitOnP_first _ t (fun x hx => by simpa using h x hx) d (by simpa using hd)]
  cases t with
  | nil => exact absurd rfl ht
  | cons a r => simp

theorem dropWhile_head_not {α : Type} (f : α → Bool) (l : List α) (d : α) (r : List α)
    (h : l.dropWhile f = d :: r) : f d = false := by
  induction l with
  | nil => simp at h
  | cons a t ih =>
    by_cases ha : f a = true
    · rw [List.dropWhile_cons_of_pos ha] at h
      exact ih h
    · rw [List.dropWhile_cons_of_neg ha] at h
      have := (List.cons.inj h).1
      subst this
      simpa using ha

/-- What `strtok` answers, in terms of the tokens of the string it is given. -/
theorem strtok_spec (p : List Char) :
    match strtok LSH_TOK_DELIM p with
    | none => specTokens (cstring p) = []
    | some (t, s) =>
      specTokens (cstring p) = t :: specTokens (cstring s) ∧ s.length < p.length := by
  have hsplit := List.takeWhile_append_dropWhile (fun c => decide (c ∈ LSH_TOK_DELIM)) p
  have hds : ∀ x ∈ p.takeWhile (fun c => decide (c ∈ LSH_TOK_DELIM)), x ∈ LSH_TOK_DELIM := by
    intro x hx
    simpa using List.mem_takeWhile_imp hx
  have hcs : specTokens (cstring p)
      = specTokens (cstring (p.dropWhile (fun c => decide (c ∈ LSH_TOK_DELIM)))) := by
    conv_lhs => rw [← hsplit]
    rw [cstring_append_of_ne _ _ (fun x hx hn => NUL_not_delim (hn ▸ hds x hx)),
      specTokens_delims_append _ _ hds]
  have hlen : (p.dropWhile (fun c => decide (c ∈ LSH_TOK_DELIM))).length ≤ p.length :=
    (List.dropWhile_sublist _).length_le
  unfold strtok
  generalize hp1 : p.dropWhile (fun c => decide (c ∈ LSH_TOK_DELIM)) = p1 at hcs hlen
  cases p1 with
  | nil => simpa [cstring_nil, specTokens_nil] using hcs
  | cons c q =>
    have hcnd : c ∉ LSH_TOK_DELIM := by
      simpa using dropWhile_head_not _ _ _ _ hp1
    by_cases hc : c = NUL
    · simp only [hc, if_true]
      rw [hcs, hc, cstring_NUL_cons, specTokens_nil]
    · simp only [hc, if_false]
      have hsplit2 := List.takeWhile_append_dropWhile
        (fun (x : Char) => decide (x ≠ NUL ∧ x ∉ LSH_TOK_DELIM)) (c :: q)
      have htok : ∀ x ∈ (c :: q).takeWhile
          (fun (x : Char) => decide (x ≠ NUL ∧ x ∉ LSH_TOK_DELIM)),
          x ≠ NUL ∧ x ∉ LSH_TOK_DELIM := by
        intro x hx
        simpa using List.mem_takeWhile_imp hx
      have hne : (c :: q).takeWhile
          (fun (x : Char) => decide (x ≠ NUL ∧ x ∉ LSH_TOK_DELIM)) ≠ [] := by
        rw [List.takeWhile_cons_of_pos (by simp [hc, hcnd])]
        simp
      have hlen2 : ((c :: q).takeWhile
            (fun (x : Char) => decide (x ≠ NUL ∧ x ∉ LSH_TOK_DELIM))).length
          + ((c :: q).dropWhile
            (fun (x : Char) => decide (x ≠ NUL ∧ x ∉ LSH_TOK_DELIM))).length
          = (c :: q).length := by
        rw [← List.length_append, hsplit2]
      have hpos : 0 < ((c :: q).takeWhile
            (fun (x : Char) => decide (x ≠ NUL ∧ x ∉ LSH_TOK_DELIM))).length :=
        List.length_pos.mpr hne
      have hcs2 : cstring (c :: q)
          = (c :: q).takeWhile (fun (x : Char) => decide (x ≠ NUL ∧ x ∉ LSH_TOK_DELIM))
            ++ cstring ((c :: q).dropWhile
              (fun (x : Char) => decide (x ≠ NUL ∧ x ∉ LSH_TOK_DELIM))) := by
        conv_lhs => rw [← hsplit2]
        rw [cstring_append_of_ne _ _ (fun x hx => (htok x hx).1)]
      generalize hrest : (c :: q).dropWhile
        (fun (x : Char) => decide (x ≠ NUL ∧ x ∉ LSH_TOK_DELIM)) = rest at hcs2 hlen2
      generalize (c :: q).takeWhile
        (fun (x : Char) => decide (x ≠ NUL ∧ x ∉ LSH_TOK_DELIM)) = tok
        at hcs2 hlen2 hpos hne htok
      cases rest with
      | nil =>
        simp only
        refine ⟨?_, ?_⟩
        · rw [hcs, hcs2, cstring_nil, List.append_nil, specTokens_nil,
            specTokens_single tok hne (fun x hx => (htok x hx).2)]
        · simp only [List.length_nil, List.length_cons] at hlen2 hlen ⊢
          omega
      | cons d r =>
        have hdn : ¬ (d ≠ NUL ∧ d ∉ LSH_TOK_DELIM) := by
          simpa using dropWhile_head_not _ _ _ _ hrest
        by_cases hd : d = NUL
        · simp only [hd, if_true]
          refine ⟨?_, ?_⟩
          · rw [hcs, hcs2, hd, cstring_NUL_cons, List.append_nil, specTokens_nil,
              specTokens_single tok hne (fun x hx => (htok x hx).2)]
          · simp only [List.length_cons] at hlen2 hlen ⊢
            omega
        · simp only [hd, if_false]
          have hdd : d ∈ LSH_TOK_DELIM := by
            by_contra hcon
            exact hdn ⟨hd, hcon⟩
          refine ⟨?_, ?_⟩
          · rw [hcs, hcs2, cstring_cons_ne _ _ hd,
              specTokens_token_append tok d _ hne (fun x hx => (htok x hx).2) hdd]
          · simp only [List.length_cons] at hlen2 hlen ⊢
            omega

theorem splitOnP_no_sep {α : Type} (f : α → Bool) (l : List α) :
    ∀ t ∈ l.splitOnP f, ∀ c ∈ t, f c = false := by
  induction l with
  | nil => simp
  | cons x xs ih =>
    intro t ht c hc
    rw [List.splitOnP_cons] at ht
    by_cases hx : f x = true
    · rw [if_pos hx] at ht
      rcases List.mem_cons.mp ht with h | h
      · subst h; simp at hc
      · exact ih t h c hc
    · rw [if_neg hx] at ht
      cases hsp : xs.splitOnP f with
      | nil => exact absurd hsp (List.splitOnP_ne_nil f xs)
      | cons a tl =>
        rw [hsp] at ht ih
        simp only [List.modifyHead] at ht
        rcases List.mem_cons.mp ht with h | h
        · subst h
          rcases List.mem_cons.mp hc with h1 | h1
          · subst h1; simpa using hx
          · exact ih a (List.mem_cons_self _ _) c h1
        · exact ih t (List.mem_cons_of_mem _ h) c hc

theorem splitOnP_length (line : List Char) :
    (line.splitOnP (fun c => decide (c ∈ LSH_TOK_DELIM))).length
      = (((line.filter (fun c => decide (c ∈ LSH_TOK_DELIM))).map fun x => [x])
          ++ [[]]).length := by
  induction line with
  | nil => simp
  | cons x xs ih =>
    rw [List.splitOnP_cons]
    by_cases hx : x ∈ LSH_TOK_DELIM
    · simp [hx, List.filter] at ih ⊢
      exact ih
    · cases hsp : xs.splitOnP (fun c => decide (c ∈ LSH_TOK_DELIM)) with
      | nil => exact absurd hsp (List.splitOnP_ne_nil _ xs)
      | cons a tl =>
        rw [hsp] at ih
        simp [hx, List.filter, List.modifyHead] at ih ⊢
        exact ih

theorem specTokens_mem (line : List Char) (t : Token) (ht : t ∈ specTokens line) :
    t ≠ [] ∧ (∀ c ∈ t, c ∉ LSH_TOK_DELIM) ∧ ∀ c ∈ t, c ∈ line := by
  unfold specTokens at ht
  rw [List.mem_filter] at ht
  refine ⟨?_, ?_, ?_⟩
  · intro h
    rw [h] at ht
    simp at ht
  · intro c hc
    simpa using splitOnP_no_sep _ line t ht.1 c hc
  · intro c hc
    have hsub : c ∈ (line.splitOnP (fun c => decide (c ∈ LSH_TOK_DELIM))).flatten :=
      List.mem_flatten.mpr ⟨t, ht.1, hc⟩
    have hspec := List.splitOnP_spec (fun c => decide (c ∈ LSH_TOK_DELIM)) line
    rw [← hspec]
    rw [List.mem_flatten] at hsub ⊢
    obtain ⟨u, hu, hcu⟩ := hsub
    obtain ⟨k, hk, hget⟩ := List.getElem_of_mem hu
    have hlen := splitOnP_length line
    refine ⟨u ++ ((((line.filter (fun c => decide (c ∈ LSH_TOK_DELIM))).map fun x => [x])
            ++ [[]])[k]), ?_, ?_⟩
    · rw [List.mem_iff_getElem]
      refine ⟨k, ?_, ?_⟩
      · rw [List.length_zipWith, ← hlen]
        simpa using hk
      · rw [List.getElem_zipWith]
        simp [hget]
    · exact List.mem_append_left _ hcu

theorem lsh_split_line_loop_spec (junk : Nat → Option Token) :
    ∀ (n : Nat) (token : Option Token) (saved : List Char) (st : SplitState), st.Inv →
      (token.isSome → saved.length < n) →
      ∃ st1 : SplitState, lsh_split_line_loop junk n token saved st = some st1
        ∧ st1.position = st.position + (pending token saved).length
        ∧ st1.tokens.take st1.position
            = st.tokens.take st.position ++ (pending token saved).map some
        ∧ st1.tokens.get? st1.position = some none
        ∧ st1.writes
            = st.writes ++ storesFrom 64 st.position ((pending token saved).length + 1) := by
  have hfinish : ∀ (n : Nat) (saved : List Char) (st : SplitState), st.Inv →
      ∃ st1 : SplitState, lsh_split_line_loop junk n none saved st = some st1
        ∧ st1.position = st.position + (pending none saved).length
        ∧ st1.tokens.take st1.position
            = st.tokens.take st.position ++ (pending none saved).map some
        ∧ st1.tokens.get? st1.position = some none
        ∧ st1.writes
            = st.writes ++ storesFrom 64 st.position ((pending none saved).length + 1) := by
    intro n saved st hst
    have hlt : st.position < st.tokens.length := by rw [hst.length_eq]; exact hst.in_block
    refine ⟨{ st with tokens := st.tokens.set st.position none,
                      writes := st.writes ++ [(st.position, st.bufsize)] }, ?_, ?_, ?_, ?_, ?_⟩
    · cases n <;>
        simp only [lsh_split_line_loop, store_eq_some _ _ _ hlt, Option.map_some']
    · simp [pending]
    · simp [pending, set_take_self]
    · simp [hlt]
    · have := hst.capacity
      simp [pending, storesFrom, this]
  intro n
  induction n with
  | zero =>
    intro token saved st hst hfuel
    cases token with
    | none => exact hfinish 0 saved st hst
    | some t => exact absurd (hfuel rfl) (Nat.not_lt_zero _)
  | succ n ih =>
    intro token saved st hst hfuel
    cases token with
    | none => exact hfinish (n + 1) saved st hst
    | some t =>
      have hlt : st.position < st.tokens.length := by rw [hst.length_eq]; exact hst.in_block
      have hcap := hst.capacity
      have hin := hst.in_block
      have hlen := hst.length_eq
      have hsaved : saved.length < n + 1 := hfuel rfl
      -- the state after the store and the growth of the block
      obtain ⟨st1, hst1, hinv, hpos, htake, hwr⟩ : ∃ st1 : SplitState,
          (if st.position + 1 ≥ st.bufsize then
            ({ bufsize := st.bufsize + LSH_TOK_BUFSIZE, position := st.position + 1,
               tokens := realloc junk (st.tokens.set st.position (some t))
                 (st.bufsize + LSH_TOK_BUFSIZE),
               writes := st.writes ++ [(st.position, st.bufsize)] } : SplitState)
          else
            { bufsize := st.bufsize, position := st.position + 1,
              tokens := st.tokens.set st.position (some t),
              writes := st.writes ++ [(st.position, st.bufsize)] }) = st1
          ∧ st1.Inv ∧ st1.position = st.position + 1
          ∧ st1.tokens.take (st.position + 1) = st.tokens.take st.position ++ [some t]
          ∧ st1.writes = st.writes ++ [(st.position, 64 * (st.position / 64 + 1))] := by
        by_cases hfull : st.position + 1 ≥ st.bufsize
        · refine ⟨_, if_pos hfull, ⟨?_, ?_, ?_⟩, rfl, ?_, ?_⟩
          · simp only
            rw [realloc_length]
            simp [hlen]
          · simp only [LSH_TOK_BUFSIZE]; omega
          · simp only [LSH_TOK_BUFSIZE]; omega
          · simp only
            rw [realloc_take junk _ _ _ (by simp [hlen]) (by simp; omega),
              set_take_succ _ _ _ hlt]
          · simp only
            rw [← hcap]
        · refine ⟨_, if_neg hfull, ⟨?_, ?_, ?_⟩, rfl, ?_, ?_⟩
          · simp [hlen]
          · simp only; omega
          · simp only; omega
          · simp only
            rw [set_take_succ _ _ _ hlt]
          · simp only
            rw [← hcap]
      have hstep : lsh_split_line_loop junk (n + 1) (some t) saved st
          = match strtok LSH_TOK_DELIM saved with
            | none => lsh_split_line_loop junk n none [] st1
            | some (token1, saved1) => lsh_split_line_loop junk n (some token1) saved1 st1 := by
        simp only [lsh_split_line_loop, store_eq_some _ _ _ hlt]
        rw [hst1]
      have hspec := strtok_spec saved
      cases htk : strtok LSH_TOK_DELIM saved with
      | none =>
        rw [htk] at hspec hstep
        simp only at hspec hstep
        obtain ⟨st2, h1, h2, h3, h4, h5⟩ := ih none [] st1 hinv (fun h => by simp at h)
        refine ⟨st2, by rw [hstep]; exact h1, ?_, ?_, h4, ?_⟩
        · simp only [pending, hspec, List.length_cons, List.length_nil] at h2 ⊢
          omega
        · have h2a : st2.position = st.position + 1 := by
            simp only [pending, List.length_nil] at h2; omega
          rw [h2a] at h3 ⊢
          rw [h3, hpos, htake]
          simp [pending, hspec]
        · rw [h5, hwr, hpos]
          simp only [pending, hspec, List.length_cons, List.length_nil]
          rw [storesFrom_succ 64 st.position]
          simp
      | some r =>
        obtain ⟨t1, s1⟩ := r
        rw [htk] at hspec hstep
        simp only at hspec hstep
        obtain ⟨hs1, hs2⟩ := hspec
        obtain ⟨st2, h1, h2, h3, h4, h5⟩ :=
          ih (some t1) s1 st1 hinv (fun _ => by omega)
        refine ⟨st2, by rw [hstep]; exact h1, ?_, ?_, h4, ?_⟩
        · simp only [pending, hs1, List.length_cons] at h2 ⊢
          omega
        · rw [h3, hpos, htake]
          simp [pending, hs1]
        · rw [h5, hwr, hpos]
          simp only [pending, hs1, List.length_cons]
          rw [storesFrom_succ 64 st.position]
          simp

/-! ## Reader and tokenizer: what they return -/

theorem nullTerminated_map_some (l : List Token) (rest : List (Option Token)) :
    nullTerminated (l.map some ++ none :: rest) = l := by
  induction l with
  | nil => rfl
  | cons t r ih => simp [nullTerminated, ih]

theorem nullTerminated_of_take (cells : List (Option Token)) (l : List Token)
    (h1 : cells.take l.length = l.map some) (h2 : cells.get? l.length = some none) :
    nullTerminated cells = l := by
  have hsplit := block_split cells l.length none h2
  rw [h1] at hsplit
  rw [hsplit]
  exact nullTerminated_map_some l _

theorem cstring_append_NUL (line rest : List Char) :
    cstring (line ++ NUL :: rest) = cstring line := by
  induction line with
  | nil => simp [cstring]
  | cons c r ih =>
    by_cases hc : c = NUL
    · simp [cstring, hc]
    · simp only [List.cons_append, cstring_cons_ne _ _ hc, ih]

theorem cstring_of_take (cells line : List Char)
    (h1 : cells.take line.length = line) (h2 : cells.get? line.length = some NUL) :
    cstring cells = cstring line := by
  have hsplit := block_split cells line.length NUL h2
  rw [h1] at hsplit
  rw [hsplit]
  exact cstring_append_NUL line _

theorem readInit_inv (junk : Nat → Char) :
    ReadState.Inv { bufsize := LSH_RL_BUFSIZE, position := 0,
                    buffer := malloc junk LSH_RL_BUFSIZE, writes := [] } := by
  refine ⟨?_, ?_, ?_, ?_, ?_⟩
  · dsimp only
    exact le_refl _
  · dsimp only
    simp [LSH_RL_BUFSIZE]
  · dsimp only
    simp [LSH_RL_BUFSIZE]
  · dsimp only
    simp [LSH_RL_BUFSIZE]
  · dsimp only
    rw [malloc_length]

theorem splitInit_inv (junk : Nat → Option Token) :
    SplitState.Inv { bufsize := LSH_TOK_BUFSIZE, position := 0,
                     tokens := malloc junk LSH_TOK_BUFSIZE, writes := [] } := by
  refine ⟨?_, ?_, ?_⟩
  · dsimp only
    exact malloc_length _ _
  · dsimp only
    simp [LSH_TOK_BUFSIZE]
  · dsimp only
    simp [LSH_TOK_BUFSIZE]

/-- The final state of `lsh_read_line` on a line below the limit. -/
theorem lsh_read_line_run_spec (junk : Nat → Char) (stdin : List Char)
    (hshort : (firstLine stdin).length < LINE_LIMIT) :
    ∃ st : ReadState, lsh_read_line_run junk stdin = .returned st (afterLine stdin)
      ∧ st.position = (firstLine stdin).length
      ∧ st.buffer.take (firstLine stdin).length = firstLine stdin
      ∧ st.buffer.get? (firstLine stdin).length = some NUL
      ∧ st.writes = readStores 0 ((firstLine stdin).length + 1) := by
  have hroom : (0 : Int) + ((firstLine stdin).length : Int) < 2147482624 := by
    unfold LINE_LIMIT at hshort
    omega
  obtain ⟨st, h1, h2, h3, h4, h5⟩ :=
    lsh_read_line_loop_spec junk stdin _ (readInit_inv junk) hroom
  have hpos : st.position = ((firstLine stdin).length : Int) := by simpa using h2
  have hto : st.position.toNat = (firstLine stdin).length := by rw [hpos]; simp
  refine ⟨st, h1, hpos, ?_, ?_, ?_⟩
  · rw [← hto, h3]; simp
  · rw [← hto]; exact h4
  · simpa using h5

/-- The end of `lsh_read_line` on a line of `LINE_LIMIT` characters or more. -/
theorem lsh_read_line_run_overflow (junk : Nat → Char) (stdin : List Char)
    (hlong : LINE_LIMIT ≤ (firstLine stdin).length) :
    lsh_read_line_run junk stdin = .allocationError (stdin.drop LINE_LIMIT) := by
  have hroom : (2147482624 : Int) ≤ (0 : Int) + ((firstLine stdin).length : Int) := by
    unfold LINE_LIMIT at hlong
    omega
  have h := lsh_read_line_loop_overflow junk stdin _ (readInit_inv junk) hroom
  unfold lsh_read_line_run
  rw [h]
  rfl

/-- The final state of `lsh_split_line`. -/
theorem lsh_split_line_run_spec (junk : Nat → Option Token) (line : List Char) :
    ∃ st : SplitState, lsh_split_line_run junk line = some st
      ∧ st.position = (specTokens (cstring line)).length
      ∧ st.tokens.take (specTokens (cstring line)).length
          = (specTokens (cstring line)).map some
      ∧ st.tokens.get? (specTokens (cstring line)).length = some none
      ∧ st.writes = storesFrom 64 0 ((specTokens (cstring line)).length + 1) := by
  have hspec := strtok_spec line
  unfold lsh_split_line_run
  cases htk : strtok LSH_TOK_DELIM line with
  | none =>
    rw [htk] at hspec
    simp only at hspec
    obtain ⟨st, h1, h2, h3, h4, h5⟩ :=
      lsh_split_line_loop_spec junk line.length none [] _ (splitInit_inv junk)
        (fun h => by simp at h)
    have hpos : st.position = 0 := by simpa [pending] using h2
    rw [hspec]
    refine ⟨st, h1, ?_, ?_, ?_, ?_⟩
    · rw [hpos]; rfl
    · simp
    · rw [hpos] at h4; exact h4
    · simpa [pending] using h5
  | some r =>
    obtain ⟨t, saved⟩ := r
    rw [htk] at hspec
    simp only at hspec
    obtain ⟨hs1, hs2⟩ := hspec
    obtain ⟨st, h1, h2, h3, h4, h5⟩ :=
      lsh_split_line_loop_spec junk line.length (some t) saved _ (splitInit_inv junk)
        (fun _ => hs2)
    have hpend : pending (some t) saved = specTokens (cstring line) := by
      rw [hs1]; rfl
    rw [hpend] at h2 h3 h5
    have hpos : st.position = (specTokens (cstring line)).length := by simpa using h2
    refine ⟨st, h1, hpos, ?_, ?_, ?_⟩
    · rw [← hpos, h3]; simp
    · rw [← hpos]; exact h4
    · simpa using h5

/-- What `lsh_read_line` returns on a line below the limit. -/
theorem lsh_read_line_spec (junk : Nat → Char) (stdin : List Char)
    (hshort : (firstLine stdin).length < LINE_LIMIT) :
    ∃ buffer : List Char, lsh_read_line junk stdin = .returned buffer (afterLine stdin)
      ∧ buffer.take (firstLine stdin).length = firstLine stdin
      ∧ buffer.get? (firstLine stdin).length = some NUL
      ∧ cstring buffer = cstring (firstLine stdin) := by
  obtain ⟨st, h1, _, h3, h4, _⟩ := lsh_read_line_run_spec junk stdin hshort
  exact ⟨st.buffer, by simp [lsh_read_line, h1, Read.map], h3, h4, cstring_of_take _ _ h3 h4⟩

/-- What `lsh_read_line` does on a line of `LINE_LIMIT` characters or more. -/
theorem lsh_read_line_overflow (junk : Nat → Char) (stdin : List Char)
    (hlong : LINE_LIMIT ≤ (firstLine stdin).length) :
    lsh_read_line junk stdin = .allocationError (stdin.drop LINE_LIMIT) := by
  simp [lsh_read_line, lsh_read_line_run_overflow junk stdin hlong, Read.map]

/-- What `lsh_split_line` returns. -/
theorem lsh_split_line_spec (junk : Nat → Option Token) (line : List Char) :
    ∃ cells : List (Option Token), lsh_split_line junk line = some cells
      ∧ cells.take (specTokens (cstring line)).length = (specTokens (cstring line)).map some
      ∧ cells.get? (specTokens (cstring line)).length = some none
      ∧ nullTerminated cells = specTokens (cstring line) := by
  obtain ⟨st, h1, _, h3, h4, _⟩ := lsh_split_line_run_spec junk line
  exact ⟨st.tokens, by simp [lsh_split_line, h1], h3, h4, nullTerminated_of_take _ _ h3 h4⟩

theorem storesFrom_mem (unit start count p b : Nat) (hunit : 0 < unit)
    (h : (p, b) ∈ storesFrom unit start count) :
    p < b ∧ b = unit * (p / unit + 1) ∧ start ≤ p ∧ p < start + count := by
  unfold storesFrom at h
  rw [List.mem_map] at h
  obtain ⟨q, hq, heq⟩ := h
  have hp : q = p := congrArg Prod.fst heq
  have hb : unit * (q / unit + 1) = b := congrArg Prod.snd heq
  subst hp
  rw [List.mem_range'_1] at hq
  refine ⟨?_, hb.symm, hq.1, hq.2⟩
  rw [← hb]
  have := Nat.lt_mul_div_succ q hunit
  simpa [Nat.mul_add] using this

theorem specTokens_flatten (line : List Char) :
    (specTokens line).flatten = line.filter (fun c => decide (c ∉ LSH_TOK_DELIM)) := by
  induction line with
  | nil => simp [specTokens_nil]
  | cons x xs ih =>
    by_cases hx : x ∈ LSH_TOK_DELIM
    · rw [specTokens_delim_cons _ _ hx, ih]
      simp [List.filter, hx]
    · unfold specTokens at ih ⊢
      rw [List.splitOnP_cons]
      cases hsp : xs.splitOnP (fun c => decide (c ∈ LSH_TOK_DELIM)) with
      | nil => exact absurd hsp (List.splitOnP_ne_nil _ xs)
      | cons a tl =>
        rw [hsp] at ih
        cases a with
        | nil =>
          simp [hx, List.filter, List.modifyHead] at ih ⊢
          exact ih
        | cons y ys =>
          simp [hx, List.filter, List.modifyHead] at ih ⊢
          exact ih

theorem specTokens_of_delims (line : List Char) (h : ∀ c ∈ line, c ∈ LSH_TOK_DELIM) :
    specTokens (cstring line) = [] := by
  rw [cstring_of_ne line (fun hn => NUL_not_delim (h NUL hn))]
  have := specTokens_delims_append line [] h
  rw [List.append_nil] at this
  rw [this, specTokens_nil]

theorem firstLine_no_LF (stdin : List Char) : '\n' ∉ firstLine stdin := by
  intro h
  have := List.mem_takeWhile_imp h
  simp at this

theorem firstLine_afterLine (stdin : List Char) :
    stdin = firstLine stdin ++ '\n' :: afterLine stdin
      ∨ ('\n' ∉ stdin ∧ firstLine stdin = stdin ∧ afterLine stdin = []) := by
  induction stdin with
  | nil => right; simp [firstLine, afterLine]
  | cons c r ih =>
    rw [firstLine_cons, afterLine_cons]
    by_cases hc : c = '\n'
    · left; simp [hc]
    · rw [if_neg hc, if_neg hc]
      rcases ih with h | ⟨h1, h2, h3⟩
      · left
        rw [List.cons_append, ← h]
      · right
        refine ⟨?_, by rw [h2], h3⟩
        intro hmem
        rcases List.mem_cons.mp hmem with h | h
        · exact hc h.symm
        · exact h1 h

theorem firstLine_append_LF (l rest : List Char) (h : '\n' ∉ l) :
    firstLine (l ++ '\n' :: rest) = l ∧ afterLine (l ++ '\n' :: rest) = rest := by
  induction l with
  | nil => simp [firstLine_cons, afterLine_cons]
  | cons c r ih =>
    have hc : c ≠ '\n' := fun hc => h (hc ▸ List.mem_cons_self _ _)
    have hr := ih (fun hr => h (List.mem_cons_of_mem _ hr))
    rw [List.cons_append, firstLine_cons, afterLine_cons, if_neg hc, if_neg hc, hr.1, hr.2]
    exact ⟨rfl, rfl⟩

theorem firstLine_of_no_LF (l : List Char) (h : '\n' ∉ l) :
    firstLine l = l ∧ afterLine l = [] := by
  rcases firstLine_afterLine l with h1 | ⟨_, h2, h3⟩
  · exfalso
    apply h
    rw [h1]
    simp
  · exact ⟨h2, h3⟩

theorem readStores_indices (count : Nat) :
    (readStores 0 count).map Prod.fst = (List.range count).map (fun (i : Nat) => (i : Int)) := by
  unfold readStores
  rw [List.map_map]
  apply List.map_congr_left
  intro i _
  simp

theorem readStores_mem (count : Nat) (p b : Int) (h : (p, b) ∈ readStores 0 count) :
    0 ≤ p ∧ p < b ∧ b = 1024 * (p / 1024 + 1) := by
  unfold readStores at h
  rw [List.mem_map] at h
  obtain ⟨i, _, heq⟩ := h
  have hp : (0 : Int) + (i : Int) = p := congrArg Prod.fst heq
  have hb : 1024 * (((0 : Int) + (i : Int)) / 1024 + 1) = b := congrArg Prod.snd heq
  omega

theorem readStores_getLast (count : Nat) :
    (readStores 0 (count + 1)).getLast?
      = some ((count : Int), 1024 * ((count : Int) / 1024 + 1)) := by
  unfold readStores
  rw [List.range_succ, List.map_append]
  simp

theorem storesFrom_indices (unit count : Nat) :
    (storesFrom unit 0 count).map Prod.fst = List.range count := by
  rw [storesFrom, List.map_map, List.range_eq_range']
  exact List.map_id _

theorem storesFrom_getLast (unit count : Nat) :
    (storesFrom unit 0 (count + 1)).getLast? = some (count, unit * (count / unit + 1)) := by
  simp [storesFrom, List.range'_concat, List.getLast?_eq_getLast]

/-! ## Claims on the reader and the tokenizer -/

/-- C1: for every line without NUL, `lsh_split_line` returns a block that holds exactly the
tokens of the line in order (the line split at every delimiter, empty fields discarded)
followed by the NULL terminator; every token is non-empty and has no delimiter, and the tokens
put end to end are the non-delimiter characters of the line. -/
theorem C1_split_line_tokens (junk : Nat → Option Token) (line : List Char)
    (hline : NUL ∉ line) :
    ∃ cells : List (Option Token), lsh_split_line junk line = some cells
      ∧ cells.take (specTokens line).length = (specTokens line).map some
      ∧ cells.get? (specTokens line).length = some none
      ∧ nullTerminated cells = specTokens line
      ∧ (∀ t ∈ nullTerminated cells, t ≠ [] ∧ ∀ c ∈ t, c ∉ LSH_TOK_DELIM)
      ∧ (nullTerminated cells).flatten
          = line.filter (fun c => decide (c ∉ LSH_TOK_DELIM)) := by
  obtain ⟨cells, h1, h2, h3, h4⟩ := lsh_split_line_spec junk line
  rw [cstring_of_ne line hline] at h2 h3 h4
  refine ⟨cells, h1, h2, h3, h4, ?_, ?_⟩
  · intro t ht
    rw [h4] at ht
    exact ⟨(specTokens_mem line t ht).1, (specTokens_mem line t ht).2.1⟩
  · rw [h4]
    exact specTokens_flatten line

/-- C1 on the two lines of the specification: three tokens, and no token at all. -/
theorem C1_split_line_tokens_witness :
    (NUL ∉ "foo   bar\tbaz".toList
      ∧ ∃ cells, lsh_split_line (fun _ => none) "foo   bar\tbaz".toList = some cells
          ∧ nullTerminated cells = ["foo".toList, "bar".toList, "baz".toList])
    ∧ (NUL ∉ "   ".toList
      ∧ ∃ cells, lsh_split_line (fun _ => none) "   ".toList = some cells
          ∧ cells.get? 0 = some none ∧ nullTerminated cells = []) := by
  refine ⟨⟨by decide, ?_⟩, ⟨by decide, ?_⟩⟩
  · obtain ⟨cells, h1, _, _, h4, _⟩ :=
      C1_split_line_tokens (fun _ => none) "foo   bar\tbaz".toList (by decide)
    exact ⟨cells, h1, h4.trans (by decide)⟩
  · obtain ⟨cells, h1, _, h3, h4, _⟩ :=
      C1_split_line_tokens (fun _ => none) "   ".toList (by decide)
    have hnil : specTokens "   ".toList = [] := by decide
    rw [hnil] at h3 h4
    exact ⟨cells, h1, h3, h4⟩

/-- C2, as the code has it: for every input whose first line (the characters before the first
line feed, or all of them when there is none) has fewer than 2^31 - 1024 characters,
`lsh_read_line` stores those characters in its buffer, followed by a NUL, consumes the line
feed and leaves the rest unread; the string it returns is those characters up to their first
NUL, so it is exactly those characters when none of them is NUL.  On a longer line `bufsize`
leaves the range of `int` and the reader ends the process with an allocation error.  An
exhausted stream gives the empty string. -/
theorem C2_read_line (junk : Nat → Char) (stdin : List Char) :
    ((firstLine stdin).length < LINE_LIMIT →
      ∃ buffer : List Char, lsh_read_line junk stdin = .returned buffer (afterLine stdin)
        ∧ buffer.take (firstLine stdin).length = firstLine stdin
        ∧ buffer.get? (firstLine stdin).length = some NUL
        ∧ cstring buffer = cstring (firstLine stdin)
        ∧ (NUL ∉ firstLine stdin → cstring buffer = firstLine stdin))
    ∧ (LINE_LIMIT ≤ (firstLine stdin).length →
        lsh_read_line junk stdin = .allocationError (stdin.drop LINE_LIMIT))
    ∧ '\n' ∉ firstLine stdin
    ∧ (stdin = firstLine stdin ++ '\n' :: afterLine stdin
        ∨ ('\n' ∉ stdin ∧ firstLine stdin = stdin ∧ afterLine stdin = []))
    ∧ (stdin = [] →
        ∃ buffer : List Char, lsh_read_line junk stdin = .returned buffer []
          ∧ cstring buffer = [])
    ∧ LINE_LIMIT = 2 ^ 31 - 1024 := by
  refine ⟨?_, lsh_read_line_overflow junk stdin, firstLine_no_LF stdin,
    firstLine_afterLine stdin, ?_, by norm_num [LINE_LIMIT]⟩
  · intro hshort
    obtain ⟨buffer, h1, h2, h3, h4⟩ := lsh_read_line_spec junk stdin hshort
    refine ⟨buffer, h1, h2, h3, h4, ?_⟩
    intro hn
    rw [h4, cstring_of_ne _ hn]
  · intro he
    have hshort : (firstLine stdin).length < LINE_LIMIT := by
      rw [he, firstLine_nil, List.length_nil]
      unfold LINE_LIMIT
      omega
    obtain ⟨buffer, h1, _, _, h4⟩ := lsh_read_line_spec junk stdin hshort
    rw [he, afterLine_nil] at h1
    rw [he, firstLine_nil, cstring_nil] at h4
    rw [he]
    exact ⟨buffer, h1, h4⟩

/-- C2 on a line of 2000 characters, longer than the initial capacity: it is returned in full
and the input after its line feed is left unread. -/
theorem C2_read_line_witness :
    (firstLine (List.replicate 2000 'x' ++ '\n' :: "next".toList)).length < LINE_LIMIT
      ∧ NUL ∉ firstLine (List.replicate 2000 'x' ++ '\n' :: "next".toList)
      ∧ ∃ buffer, lsh_read_line (fun _ => 'z')
            (List.replicate 2000 'x' ++ '\n' :: "next".toList)
              = .returned buffer "next".toList
          ∧ cstring buffer = List.replicate 2000 'x' := by
  have hl : '\n' ∉ List.replicate 2000 'x' := by
    intro h
    exact absurd (List.eq_of_mem_replicate h) (by decide)
  have hf := firstLine_append_LF (List.replicate 2000 'x') "next".toList hl
  have hshort : (firstLine (List.replicate 2000 'x' ++ '\n' :: "next".toList)).length
      < LINE_LIMIT := by
    rw [hf.1, List.length_replicate]
    unfold LINE_LIMIT
    omega
  have hn : NUL ∉ firstLine (List.replicate 2000 'x' ++ '\n' :: "next".toList) := by
    rw [hf.1]
    intro h
    exact absurd (List.eq_of_mem_replicate h) (by decide)
  obtain ⟨buffer, h1, _, _, _, h5⟩ :=
    (C2_read_line (fun _ => 'z') (List.replicate 2000 'x' ++ '\n' :: "next".toList)).1 hshort
  refine ⟨hshort, hn, buffer, ?_, ?_⟩
  · rw [h1, hf.2]
  · rw [h5 hn, hf.1]

/-- C2 as stated fails in two ways.  When a NUL byte precedes the line feed: on the input `a`,
NUL, `b`, line feed, `c` the three characters before the line feed are `a`, NUL, `b`, but the
string returned is `a`, and the tokenizer finds the single token `a` in it.  And not for every
length: on a line of 2^31 - 1024 characters the reader returns nothing and ends the process
with an allocation error. -/
theorem C2_counterexample :
    (∃ buffer, lsh_read_line (fun _ => 'z') ['a', NUL, 'b', '\n', 'c'] = .returned buffer ['c']
      ∧ firstLine ['a', NUL, 'b', '\n', 'c'] = ['a', NUL, 'b']
      ∧ cstring buffer = ['a']
      ∧ cstring buffer ≠ firstLine ['a', NUL, 'b', '\n', 'c']
      ∧ (lsh_split_line (fun _ => none) buffer).map nullTerminated = some [['a']])
    ∧ lsh_read_line (fun _ => 'z') (List.replicate LINE_LIMIT 'x') = .allocationError [] := by
  constructor
  · have h3 : (firstLine ['a', NUL, 'b', '\n', 'c']).length = 3 := by decide
    obtain ⟨buffer, h1, _, _, h4⟩ :=
      lsh_read_line_spec (fun _ => 'z') ['a', NUL, 'b', '\n', 'c']
        (by rw [h3]; unfold LINE_LIMIT; omega)
    obtain ⟨cells, h5, _, _, h8⟩ := lsh_split_line_spec (fun _ => none) buffer
    have hc : cstring (firstLine ['a', NUL, 'b', '\n', 'c']) = ['a'] := by decide
    have ha : afterLine ['a', NUL, 'b', '\n', 'c'] = ['c'] := by decide
    rw [← h4] at hc
    rw [hc] at h8
    rw [ha] at h1
    refine ⟨buffer, h1, by decide, hc, ?_, ?_⟩
    · rw [hc]; decide
    · rw [h5, Option.map_some', h8]
      decide
  · have hl : '\n' ∉ List.replicate LINE_LIMIT 'x' := by
      intro h
      exact absurd (List.eq_of_mem_replicate h) (by decide)
    have hlong : LINE_LIMIT ≤ (firstLine (List.replicate LINE_LIMIT 'x')).length := by
      rw [(firstLine_of_no_LF _ hl).1, List.length_replicate]
    rw [lsh_read_line_overflow _ _ hlong,
      List.drop_eq_nil_of_le (by rw [List.length_replicate])]

/-- C10: whenever every allocation succeeds, that is whenever `lsh_read_line` returns, its
stores went to the indices 0, 1, ..., n in turn, the last one being the terminator (n is the
length of the line), and each index is at least 0 and below the value of `bufsize` at that
moment, which is `1024 * (index / 1024 + 1)`.  The reader returns on every line of fewer than
2^31 - 1024 characters; on a longer line `realloc` refuses the wrapped size and the process
ends; in no run does a store fall outside the block.  In `lsh_split_line` the stores go to
the indices 0, 1, ..., n (n is the number of tokens), each below `bufsize`, which is
`64 * (index / 64 + 1)`, and none falls outside the block. -/
theorem C10_stores_in_block (junkc : Nat → Char) (junkp : Nat → Option Token)
    (stdin line : List Char) :
    (lsh_read_line_run junkc stdin ≠ .undefined
      ∧ (∀ st unread, lsh_read_line_run junkc stdin = .returned st unread →
          st.writes.map Prod.fst
              = (List.range ((firstLine stdin).length + 1)).map (fun (i : Nat) => (i : Int))
          ∧ (∀ e ∈ st.writes, 0 ≤ e.1 ∧ e.1 < e.2 ∧ e.2 = 1024 * (e.1 / 1024 + 1))
          ∧ st.writes.getLast? = some (((firstLine stdin).length : Int),
              1024 * (((firstLine stdin).length : Int) / 1024 + 1))
          ∧ ((firstLine stdin).length = 1023 → st.writes.getLast? = some (1023, 1024))
          ∧ ((firstLine stdin).length = 1024 → st.writes.getLast? = some (1024, 2048)))
      ∧ ((firstLine stdin).length < LINE_LIMIT →
          ∃ st, lsh_read_line_run junkc stdin = .returned st (afterLine stdin))
      ∧ (LINE_LIMIT ≤ (firstLine stdin).length →
          lsh_read_line_run junkc stdin = .allocationError (stdin.drop LINE_LIMIT)))
    ∧ (∃ st : SplitState, lsh_split_line_run junkp line = some st
      ∧ st.writes.map Prod.fst = List.range ((specTokens (cstring line)).length + 1)
      ∧ (∀ e ∈ st.writes, e.1 < e.2 ∧ e.2 = 64 * (e.1 / 64 + 1))
      ∧ st.writes.getLast? = some ((specTokens (cstring line)).length,
            64 * ((specTokens (cstring line)).length / 64 + 1))
      ∧ ((specTokens (cstring line)).length = 63 → st.writes.getLast? = some (63, 64))
      ∧ ((specTokens (cstring line)).length = 64 → st.writes.getLast? = some (64, 128))) := by
  constructor
  · by_cases hshort : (firstLine stdin).length < LINE_LIMIT
    · obtain ⟨st0, h1, _, _, _, h5⟩ := lsh_read_line_run_spec junkc stdin hshort
      have hlast := readStores_getLast (firstLine stdin).length
      rw [← h5] at hlast
      refine ⟨by rw [h1]; exact fun h => Read.noConfusion h, ?_, fun _ => ⟨st0, h1⟩,
        fun hlong => absurd hshort (Nat.not_lt.mpr hlong)⟩
      intro st unread hst
      rw [h1] at hst
      have hst0 : st0 = st := (Read.returned.inj hst).1
      subst hst0
      refine ⟨?_, ?_, hlast, ?_, ?_⟩
      · rw [h5]; exact readStores_indices _
      · intro e he
        rw [h5] at he
        exact readStores_mem _ e.1 e.2 he
      · intro hn; rw [hlast, hn]; rfl
      · intro hn; rw [hlast, hn]; rfl
    · have hlong : LINE_LIMIT ≤ (firstLine stdin).length := Nat.le_of_not_lt hshort
      have h1 := lsh_read_line_run_overflow junkc stdin hlong
      refine ⟨by rw [h1]; exact fun h => Read.noConfusion h, ?_,
        fun hs => absurd hs hshort, fun _ => h1⟩
      intro st unread hst
      rw [h1] at hst
      exact Read.noConfusion hst
  · obtain ⟨st, h1, _, _, _, h5⟩ := lsh_split_line_run_spec junkp line
    have hlast := storesFrom_getLast 64 (specTokens (cstring line)).length
    rw [← h5] at hlast
    refine ⟨st, h1, ?_, ?_, hlast, ?_, ?_⟩
    · rw [h5]; exact storesFrom_indices _ _
    · intro e he
      rw [h5] at he
      have := storesFrom_mem 64 0 _ e.1 e.2 (by decide) he
      exact ⟨this.1, this.2.1⟩
    · intro hn; rw [hlast, hn]
    · intro hn; rw [hlast, hn]

/-- C10 on a line of exactly 1024 characters, whose terminator goes to index 1024 of a block
grown to 2048, and on a line of exactly 64 tokens, whose terminator goes to index 64 of a
block grown to 128. -/
theorem C10_stores_in_block_witness :
    ((firstLine (List.replicate 1024 'a')).length = 1024
      ∧ ∃ st : ReadState, lsh_read_line_run (fun _ => 'z') (List.replicate 1024 'a')
            = .returned st (afterLine (List.replicate 1024 'a'))
          ∧ st.writes.getLast? = some (1024, 2048))
    ∧ ((specTokens (cstring (List.replicate 64 "a ".toList).flatten)).length = 64
      ∧ ∃ st : SplitState, lsh_split_line_run (fun _ => none)
            (List.replicate 64 "a ".toList).flatten = some st
          ∧ st.writes.getLast? = some (64, 128)) := by
  have hl : '\n' ∉ List.replicate 1024 'a' := by
    intro h
    exact absurd (List.eq_of_mem_replicate h) (by decide)
  have h1024 : (firstLine (List.replicate 1024 'a')).length = 1024 := by
    rw [(firstLine_of_no_LF _ hl).1, List.length_replicate]
  have hshort : (firstLine (List.replicate 1024 'a')).length < LINE_LIMIT := by
    rw [h1024]
    unfold LINE_LIMIT
    omega
  have h64 : (specTokens (cstring (List.replicate 64 "a ".toList).flatten)).length = 64 := by
    decide
  have h := C10_stores_in_block (fun _ => 'z') (fun _ => none) (List.replicate 1024 'a')
    (List.replicate 64 "a ".toList).flatten
  obtain ⟨⟨_, hret, htot, _⟩, ⟨st2, k1, _, _, _, _, k6⟩⟩ := h
  obtain ⟨st, h1⟩ := htot hshort
  exact ⟨⟨h1024, st, h1, (hret st _ h1).2.2.2.2 h1024⟩, ⟨h64, st2, k1, k6 h64⟩⟩

/-! ## Builtins, launcher and dispatcher: lemmas -/

theorem strcmp_eq_zero_iff (a b : List Char) : strcmp a b = 0 ↔ a = b := by
  induction a generalizing b with
  | nil => cases b <;> simp [strcmp]
  | cons x xs ih =>
    cases b with
    | nil => simp [strcmp]
    | cons y ys =>
      by_cases hxy : x = y
      · simp [strcmp, hxy, ih]
      · by_cases hlt : x.toNat < y.toNat <;> simp [strcmp, hxy, hlt]

/-- The scan of `lsh_execute` over the three builtins, spelt out. -/
theorem lsh_execute_cons (env : Env) (cmd : Token) (rest : List Token) (w : World) :
    lsh_execute env (cmd :: rest) w
      = if cmd = "cd".toList then lsh_cd env (cmd :: rest) w
        else if cmd = "help".toList then lsh_help env (cmd :: rest) w
        else if cmd = "exit".toList then lsh_exit env (cmd :: rest) w
        else lsh_launch env (cmd :: rest) w := by
  simp only [lsh_execute, builtin_str, builtin_func, List.zip, List.zipWith, lsh_execute_for,
    strcmp_eq_zero_iff]

theorem lsh_help_for_stdout (names : List String) (w : World) :
    lsh_help_for names w
      = { w with stdout := w.stdout ++ names.map (fun n => "  " ++ n ++ "\n") } := by
  induction names generalizing w with
  | nil => simp [lsh_help_for]
  | cons n r ih => simp [lsh_help_for, ih, World.printf]

/-- The wait of the parent: it goes past every status that is not final and returns at the
first final one. -/
theorem lsh_launch_wait_returns (pid : Nat) (pre : List WaitStatus) (s : WaitStatus)
    (post : List WaitStatus) (w : World) (hpre : ∀ x ∈ pre, x.final = false)
    (hs : s.final = true) :
    lsh_launch_wait pid (pre ++ s :: post) w
      = .returned 1 { w with trace := w.trace
          ++ (pre ++ [s]).map (fun x => Event.waitpid pid (some x)) } := by
  induction pre generalizing w with
  | nil =>
    have hs1 : (!WIFEXITED s && !WIFSIGNALED s) = false := by
      simp only [WaitStatus.final] at hs
      cases hE : WIFEXITED s <;> cases hS : WIFSIGNALED s <;> simp_all
    simp [lsh_launch_wait, hs1, World.log]
  | cons x r ih =>
    have hx : (!WIFEXITED x && !WIFSIGNALED x) = true := by
      have := hpre x (List.mem_cons_self _ _)
      simp only [WaitStatus.final] at this
      cases hE : WIFEXITED x <;> cases hS : WIFSIGNALED x <;> simp_all
    rw [List.cons_append]
    simp only [lsh_launch_wait, hx, if_true]
    rw [ih _ (fun y hy => hpre y (List.mem_cons_of_mem _ hy))]
    simp [World.log]

/-- The wait of the parent never returns on statuses that are not final. -/
theorem lsh_launch_wait_blocks (pid : Nat) (statuses : List WaitStatus) (w : World)
    (hall : ∀ x ∈ statuses, x.final = false) :
    lsh_launch_wait pid statuses w
      = .blocked { w with trace := (w.trace
          ++ statuses.map (fun x => Event.waitpid pid (some x))) ++ [.waitpid pid none] } := by
  induction statuses generalizing w with
  | nil => simp [lsh_launch_wait, World.log]
  | cons x r ih =>
    have hx : (!WIFEXITED x && !WIFSIGNALED x) = true := by
      have := hall x (List.mem_cons_self _ _)
      simp only [WaitStatus.final] at this
      cases hE : WIFEXITED x <;> cases hS : WIFSIGNALED x <;> simp_all
    simp only [lsh_launch_wait, hx, if_true]
    rw [ih _ (fun y hy => hall y (List.mem_cons_of_mem _ hy))]
    simp [World.log]

theorem final_split (statuses : List WaitStatus) (h : statuses.any WaitStatus.final = true) :
    ∃ pre s post, statuses = pre ++ s :: post ∧ (∀ x ∈ pre, x.final = false)
      ∧ s.final = true := by
  induction statuses with
  | nil => simp at h
  | cons x r ih =>
    by_cases hx : x.final = true
    · exact ⟨[], x, r, rfl, by simp, hx⟩
    · have hr : r.any WaitStatus.final = true := by
        simpa [List.any_cons, hx] using h
      obtain ⟨pre, s, post, h1, h2, h3⟩ := ih hr
      refine ⟨x :: pre, s, post, by rw [h1]; rfl, ?_, h3⟩
      intro y hy
      rcases List.mem_cons.mp hy with h | h
      · rw [h]; simpa using hx
      · exact h2 y h

/-- The result of `lsh_launch` in the interpreter when the wait ends: it returns 1, reads no
input, and the trace gains one entry into the launcher followed by system calls only. -/
theorem lsh_launch_completes (env : Env) (args : List Token) (w : World)
    (h : (env.fork w).completes = true) :
    ∃ w1 tail, lsh_launch env args w = .returned 1 w1 ∧ w1.stdin = w.stdin
      ∧ w1.trace = w.trace ++ .enter "lsh_launch" args :: tail ∧ entries tail = [] := by
  unfold lsh_launch
  cases hf : env.fork w with
  | child => rw [hf] at h; simp [ForkResult.completes] at h
  | failed errno =>
    exact ⟨_, [.fork], rfl, rfl, by simp [World.perror, World.eprintf, World.log], rfl⟩
  | parent pid statuses =>
    rw [hf] at h
    obtain ⟨pre, s, post, h1, h2, h3⟩ := final_split statuses h
    simp only
    rw [h1, lsh_launch_wait_returns pid pre s post _ h2 h3]
    refine ⟨_, .fork :: (pre ++ [s]).map (fun x => Event.waitpid pid (some x)), rfl, rfl, ?_, ?_⟩
    · simp [World.log]
    · simp [entries, List.filter_eq_nil_iff]

/-! ## Claims on the builtins, the launcher and the dispatcher -/

/-- C7: in `lsh_launch`, whatever statuses are reported for the child, the parent calls
`waitpid` again after every status that is only `stopped` and returns 1 at the first status
that is `exited` or `signaled`; on statuses that are all `stopped` it never returns; and when
`fork` fails it writes one diagnostic to the error channel and returns 1 without any call of
`waitpid`. -/
theorem C7_launch_waits_until_final (env : Env) (args : List Token) (w : World) :
    (∀ pid pre s post, env.fork w = .parent pid (pre ++ s :: post) →
        (∀ x ∈ pre, ∃ sig, x = WaitStatus.stopped sig) →
        ((∃ code, s = WaitStatus.exited code) ∨ (∃ sig, s = WaitStatus.signaled sig)) →
        lsh_launch env args w
          = .returned 1 { w with trace := w.trace ++ [.enter "lsh_launch" args, .fork]
              ++ (pre ++ [s]).map (fun x => Event.waitpid pid (some x)) })
    ∧ (∀ pid statuses, env.fork w = .parent pid statuses →
        (∀ x ∈ statuses, ∃ sig, x = WaitStatus.stopped sig) →
        lsh_launch env args w
          = .blocked { w with trace := (w.trace ++ [.enter "lsh_launch" args, .fork]
              ++ statuses.map (fun x => Event.waitpid pid (some x))
              ++ [.waitpid pid none]) })
    ∧ (∀ errno, env.fork w = .failed errno →
        lsh_launch env args w
          = .returned 1 { w with
              stderr := w.stderr ++ ["lsh: " ++ env.strerror errno ++ "\n"],
              trace := w.trace ++ [.enter "lsh_launch" args, .fork] }) := by
  refine ⟨?_, ?_, ?_⟩
  · intro pid pre s post hf hpre hs
    have hpre1 : ∀ x ∈ pre, x.final = false := by
      intro x hx
      obtain ⟨sig, h⟩ := hpre x hx
      rw [h]; rfl
    have hs1 : s.final = true := by
      rcases hs with ⟨c, h⟩ | ⟨g, h⟩ <;> rw [h] <;> rfl
    unfold lsh_launch
    rw [hf]
    simp only
    rw [lsh_launch_wait_returns pid pre s post _ hpre1 hs1]
    simp [World.log]
  · intro pid statuses hf hall
    have hall1 : ∀ x ∈ statuses, x.final = false := by
      intro x hx
      obtain ⟨sig, h⟩ := hall x hx
      rw [h]; rfl
    unfold lsh_launch
    rw [hf]
    simp only
    rw [lsh_launch_wait_blocks pid statuses _ hall1]
    simp [World.log]
  · intro errno hf
    unfold lsh_launch
    rw [hf]
    simp [World.log, World.perror, World.eprintf]

/-- C7 on a child that is stopped twice and then killed by signal 9: three calls of `waitpid`,
then the return; and on a failing `fork`: one diagnostic and no `waitpid`. -/
theorem C7_launch_waits_until_final_witness :
    lsh_launch { absentEnv with
          fork := fun _ => .parent 7 [.stopped 19, .stopped 19, .signaled 9, .exited 0] }
        ["sleep".toList] (freshWorld [])
      = .returned 1 { freshWorld [] with
          trace := [.enter "lsh_launch" ["sleep".toList], .fork,
            .waitpid 7 (some (.stopped 19)), .waitpid 7 (some (.stopped 19)),
            .waitpid 7 (some (.signaled 9))] }
    ∧ lsh_launch { absentEnv with fork := fun _ => .failed 11 } ["sleep".toList] (freshWorld [])
      = .returned 1 { freshWorld [] with
          stderr := ["lsh: No such file or directory\n"],
          trace := [.enter "lsh_launch" ["sleep".toList], .fork] } := by
  constructor
  · exact (C7_launch_waits_until_final
      { absentEnv with
          fork := fun _ => .parent 7 [.stopped 19, .stopped 19, .signaled 9, .exited 0] }
      ["sleep".toList] (freshWorld [])).1 7 [.stopped 19, .stopped 19] (.signaled 9)
      [.exited 0] rfl
      (by intro x hx; simp at hx; exact ⟨19, hx⟩)
      (Or.inr ⟨9, rfl⟩)
  · exact (C7_launch_waits_until_final { absentEnv with fork := fun _ => .failed 11 }
      ["sleep".toList] (freshWorld [])).2.2 11 rfl

/-- C8: on the token list `cd` alone, `lsh_cd` writes one diagnostic to the error channel and
returns 1; it makes no system call (no `chdir`), and the output channel, the working directory
and the input are as before.  The dispatcher does the same on that list. -/
theorem C8_cd_without_argument (env : Env) (w : World) :
    (∃ w1, lsh_cd env ["cd".toList] w = .returned 1 w1
      ∧ w1.stderr = w.stderr ++ ["lsh: expected argument to \"cd\"\n"]
      ∧ w1.trace = w.trace ++ [.enter "lsh_cd" ["cd".toList]]
      ∧ w1.stdout = w.stdout ∧ w1.cwd = w.cwd ∧ w1.stdin = w.stdin)
    ∧ lsh_execute env ["cd".toList] w = lsh_cd env ["cd".toList] w := by
  refine ⟨⟨_, rfl, rfl, rfl, rfl, rfl, rfl⟩, ?_⟩
  rw [lsh_execute_cons, if_pos rfl]

/-- C9: on every token list whose first token is `help`, the dispatcher runs `lsh_help`, which
writes the three banner lines, then the builtin names `cd`, `help`, `exit` in the order of the
table, each on a line of its own (after two spaces), then the closing line, and returns 1;
nothing goes to the error channel, the working directory and the input are as before, and no
system call is made. -/
theorem C9_help_banner (env : Env) (args : List Token) (w : World)
    (hargs : args.head? = some "help".toList) :
    lsh_execute env args w = lsh_help env args w
    ∧ ∃ w1, lsh_help env args w = .returned 1 w1
      ∧ w1.stdout = w.stdout
          ++ ["Stephen Brennan's LSH\n", "Type program names and arguments, and hit enter.\n",
              "The following are built in:\n"]
          ++ builtin_str.map (fun n => "  " ++ n ++ "\n")
          ++ ["Use the man command for information on other programs.\n"]
      ∧ builtin_str.map (fun n => "  " ++ n ++ "\n") = ["  cd\n", "  help\n", "  exit\n"]
      ∧ w1.stderr = w.stderr ∧ w1.cwd = w.cwd ∧ w1.stdin = w.stdin
      ∧ w1.trace = w.trace ++ [.enter "lsh_help" args] := by
  constructor
  · cases args with
    | nil => simp at hargs
    | cons cmd rest =>
      have hcmd : cmd = "help".toList := by simpa using hargs
      rw [lsh_execute_cons, hcmd, if_neg (by decide), if_pos rfl]
  · refine ⟨_, rfl, ?_, by decide, ?_, ?_, ?_, ?_⟩ <;>
      simp [lsh_help_for_stdout, World.printf, World.log]

/-- C9 on the line `help` in a fresh process. -/
theorem C9_help_banner_witness :
    lsh_execute absentEnv ["help".toList] (freshWorld [])
      = .returned 1 { freshWorld [] with
          stdout := ["Stephen Brennan's LSH\n",
            "Type program names and arguments, and hit enter.\n",
            "The following are built in:\n", "  cd\n", "  help\n", "  exit\n",
            "Use the man command for information on other programs.\n"],
          trace := [.enter "lsh_help" ["help".toList]] } := by
  have h := C9_help_banner absentEnv ["help".toList] (freshWorld []) rfl
  rw [h.1]
  rfl

/-- C6: on every line that is empty or made of delimiters only, `lsh_split_line` returns a
block whose first entry is the terminator, that is no token, and `lsh_execute` on it returns 1
and leaves the whole state of the process as it was: nothing written, no handler entered, no
system call, same working directory. -/
theorem C6_blank_line_is_noop (env : Env) (line : List Char) (w : World)
    (hline : ∀ c ∈ line, c ∈ LSH_TOK_DELIM) :
    ∃ cells, lsh_split_line env.junkPtr line = some cells
      ∧ cells.head? = some none
      ∧ nullTerminated cells = []
      ∧ lsh_execute env (nullTerminated cells) w = .returned 1 w := by
  obtain ⟨cells, h1, _, h3, h4⟩ := lsh_split_line_spec env.junkPtr line
  rw [specTokens_of_delims line hline] at h3 h4
  refine ⟨cells, h1, ?_, h4, ?_⟩
  · cases cells with
    | nil => simp at h3
    | cons a r => simpa using h3
  · rw [h4]
    rfl

/-- C6 on the empty line and on a line of blanks, tabs and a bell. -/
theorem C6_blank_line_is_noop_witness :
    (∃ cells, lsh_split_line absentEnv.junkPtr [] = some cells
      ∧ cells.head? = some none ∧ nullTerminated cells = []
      ∧ lsh_execute absentEnv (nullTerminated cells) (freshWorld "exit\n".toList)
          = .returned 1 (freshWorld "exit\n".toList))
    ∧ (∃ cells, lsh_split_line absentEnv.junkPtr " \t \x07\r ".toList = some cells
      ∧ cells.head? = some none ∧ nullTerminated cells = []
      ∧ lsh_execute absentEnv (nullTerminated cells) (freshWorld "exit\n".toList)
          = .returned 1 (freshWorld "exit\n".toList)) :=
  ⟨C6_blank_line_is_noop absentEnv [] (freshWorld "exit\n".toList) (by decide),
   C6_blank_line_is_noop absentEnv " \t \x07\r ".toList (freshWorld "exit\n".toList)
     (by decide)⟩

theorem lsh_launch_wait_trace (pid : Nat) (statuses : List WaitStatus) (w : World) :
    ∃ w1 tail, (lsh_launch_wait pid statuses w).world = some w1
      ∧ w1.trace = w.trace ++ tail ∧ entries tail = [] := by
  induction statuses generalizing w with
  | nil => exact ⟨_, [.waitpid pid none], rfl, rfl, rfl⟩
  | cons x r ih =>
    unfold lsh_launch_wait
    by_cases hx : (!WIFEXITED x && !WIFSIGNALED x) = true
    · obtain ⟨w1, tail, h1, h2, h3⟩ := ih (w.log (.waitpid pid (some x)))
      refine ⟨w1, .waitpid pid (some x) :: tail, ?_, ?_, ?_⟩
      · simp only [hx, if_true]; exact h1
      · rw [h2]; simp [World.log]
      · simpa [entries] using h3
    · refine ⟨w.log (.waitpid pid (some x)), [.waitpid pid (some x)], ?_, ?_, rfl⟩
      · simp only [hx]; rfl
      · rfl

/-- Every run of `lsh_launch` enters the launcher once and then makes system calls only. -/
theorem lsh_launch_trace (env : Env) (args : List Token) (w : World) :
    ∃ w1 tail, (lsh_launch env args w).world = some w1
      ∧ w1.trace = w.trace ++ .enter "lsh_launch" args :: tail ∧ entries tail = [] := by
  unfold lsh_launch
  cases hf : env.fork w with
  | child =>
    simp only
    cases he : env.execvp w args.head? args with
    | none =>
      exact ⟨_, [.fork, .execvp args.head? args], rfl, by simp [World.log], rfl⟩
    | some errno =>
      exact ⟨_, [.fork, .execvp args.head? args], rfl,
        by simp [World.log, World.perror, World.eprintf], rfl⟩
  | failed errno =>
    exact ⟨_, [.fork], rfl, by simp [World.log, World.perror, World.eprintf], rfl⟩
  | parent pid statuses =>
    simp only
    obtain ⟨w1, tail, h1, h2, h3⟩ :=
      lsh_launch_wait_trace pid statuses ((w.log (.enter "lsh_launch" args)).log .fork)
    refine ⟨w1, .fork :: tail, h1, ?_, ?_⟩
    · rw [h2]; simp [World.log]
    · simpa [entries] using h3

/-- Every run of `lsh_cd` returns 1, reads no input, enters the handler once and then makes
system calls only. -/
theorem lsh_cd_trace (env : Env) (args : List Token) (w : World) :
    ∃ w1 tail, lsh_cd env args w = .returned 1 w1 ∧ w1.stdin = w.stdin
      ∧ w1.trace = w.trace ++ .enter "lsh_cd" args :: tail ∧ entries tail = [] := by
  unfold lsh_cd
  cases h1 : args.get? 1 with
  | none => exact ⟨_, [], rfl, rfl, by simp [World.log, World.eprintf], rfl⟩
  | some dir =>
    simp only
    cases h2 : env.chdir w dir with
    | ok d => exact ⟨_, [.chdir dir], rfl, rfl, by simp [World.log], rfl⟩
    | error errno =>
      exact ⟨_, [.chdir dir], rfl, rfl, by simp [World.log, World.perror, World.eprintf], rfl⟩

/-- Every run of `lsh_help` returns 1, reads no input and enters the handler once. -/
theorem lsh_help_trace (env : Env) (args : List Token) (w : World) :
    ∃ w1, lsh_help env args w = .returned 1 w1 ∧ w1.stdin = w.stdin
      ∧ w1.trace = w.trace ++ [.enter "lsh_help" args] := by
  refine ⟨_, rfl, ?_, ?_⟩ <;> simp [lsh_help_for_stdout, World.printf, World.log]

theorem not_builtin_iff (cmd : Token) :
    (∀ name ∈ builtin_str, cmd ≠ name.toList)
      ↔ cmd ≠ "cd".toList ∧ cmd ≠ "help".toList ∧ cmd ≠ "exit".toList := by
  simp [builtin_str]

/-- The dispatcher in the interpreter, when the wait of a launched child ends: it returns 0 on
`exit` and 1 otherwise, and reads no input. -/
theorem lsh_execute_completes (env : Env) (args : List Token) (w : World)
    (h : (env.fork w).completes = true) :
    ∃ w1, lsh_execute env args w
        = .returned (if args.head? = some "exit".toList then 0 else 1) w1
      ∧ w1.stdin = w.stdin := by
  cases args with
  | nil => exact ⟨w, rfl, rfl⟩
  | cons cmd rest =>
    rw [lsh_execute_cons]
    by_cases h1 : cmd = "cd".toList
    · obtain ⟨w1, _, h2, h3, _⟩ := lsh_cd_trace env (cmd :: rest) w
      refine ⟨w1, ?_, h3⟩
      rw [if_pos h1, h2, h1]
      rfl
    · by_cases h2 : cmd = "help".toList
      · obtain ⟨w1, h3, h4, _⟩ := lsh_help_trace env (cmd :: rest) w
        refine ⟨w1, ?_, h4⟩
        rw [if_neg h1, if_pos h2, h3, h2]
        rfl
      · by_cases h3 : cmd = "exit".toList
        · refine ⟨w.log (.enter "lsh_exit" (cmd :: rest)), ?_, rfl⟩
          rw [if_neg h1, if_neg h2, if_pos h3, h3]
          rfl
        · obtain ⟨w1, _, h4, h5, _⟩ := lsh_launch_completes env (cmd :: rest) w h
          refine ⟨w1, ?_, h5⟩
          have hne : (cmd :: rest).head? ≠ some "exit".toList :=
            fun hh => h3 (Option.some.inj hh)
          rw [if_neg h1, if_neg h2, if_neg h3, h4, if_neg hne]

/-- C3: for every line, in the interpreter and when the wait of a launched child ends,
`lsh_execute` on the result of `lsh_split_line` returns 0 if and only if the first token of
the line is `exit`, and returns 1 on every other line, whatever `chdir` and `fork` answer and
whatever the final status of the child. -/
theorem C3_exit_terminates (env : Env) (line : List Char) (w : World)
    (hfork : (env.fork w).completes = true) :
    ∃ cells status w1, lsh_split_line env.junkPtr line = some cells
      ∧ nullTerminated cells = specTokens (cstring line)
      ∧ lsh_execute env (nullTerminated cells) w = .returned status w1
      ∧ (status = 0 ↔ (specTokens (cstring line)).head? = some "exit".toList)
      ∧ (status ≠ 0 → status = 1) := by
  obtain ⟨cells, h1, _, _, h4⟩ := lsh_split_line_spec env.junkPtr line
  obtain ⟨w1, h5, _⟩ := lsh_execute_completes env (nullTerminated cells) w hfork
  rw [h4] at h5
  refine ⟨cells, _, w1, h1, h4, by rw [h4]; exact h5, ?_, ?_⟩
  · by_cases he : (specTokens (cstring line)).head? = some "exit".toList <;> simp [he]
  · by_cases he : (specTokens (cstring line)).head? = some "exit".toList <;> simp [he]

/-- C3 on a line with `exit` between blanks and with arguments, and on the name of an absent
program. -/
theorem C3_exit_terminates_witness :
    (absentEnv.fork (freshWorld [])).completes = true
    ∧ (∃ cells w1, lsh_split_line absentEnv.junkPtr " \t exit now 3 ".toList = some cells
        ∧ lsh_execute absentEnv (nullTerminated cells) (freshWorld []) = .returned 0 w1)
    ∧ (∃ cells w1, lsh_split_line absentEnv.junkPtr "exits".toList = some cells
        ∧ lsh_execute absentEnv (nullTerminated cells) (freshWorld []) = .returned 1 w1) := by
  refine ⟨rfl, ?_, ?_⟩
  · obtain ⟨cells, status, w1, h1, _, h3, h4, _⟩ :=
      C3_exit_terminates absentEnv " \t exit now 3 ".toList (freshWorld []) rfl
    have hs : status = 0 := h4.mpr (by decide)
    rw [hs] at h3
    exact ⟨cells, w1, h1, h3⟩
  · obtain ⟨cells, status, w1, h1, _, h3, h4, h5⟩ :=
      C3_exit_terminates absentEnv "exits".toList (freshWorld []) rfl
    have hs : status = 1 := h5 (fun h0 => absurd (h4.mp h0) (by decide))
    rw [hs] at h3
    exact ⟨cells, w1, h1, h3⟩

/-- C4: on every token list with a first token, `lsh_execute` is the handler at index `i` of
`builtin_func` when the first token is the name at index `i` of `builtin_str`, and is
`lsh_launch` on the same list when the first token is none of the names.  Its trace gains
exactly one entry into a handler or into the launcher, with the whole token list as
arguments; the function entered is a handler exactly when the first token is its name and the
launcher exactly when it is no name.  In the child, `execvp` gets the first token as file and
the whole token list as argument vector.  The names `CD`, `Exit` and `cdx` are no builtins. -/
theorem C4_dispatch (env : Env) (cmd : Token) (rest : List Token) (w : World) :
    (∀ i name func, builtin_str.get? i = some name → builtin_func.get? i = some func →
        cmd = name.toList → lsh_execute env (cmd :: rest) w = func env (cmd :: rest) w)
    ∧ ((∀ name ∈ builtin_str, cmd ≠ name.toList) →
        lsh_execute env (cmd :: rest) w = lsh_launch env (cmd :: rest) w)
    ∧ (∃ w1 fn tail, (lsh_execute env (cmd :: rest) w).world = some w1
        ∧ w1.trace = w.trace ++ .enter fn (cmd :: rest) :: tail ∧ entries tail = []
        ∧ (fn = "lsh_cd" ↔ cmd = "cd".toList)
        ∧ (fn = "lsh_help" ↔ cmd = "help".toList)
        ∧ (fn = "lsh_exit" ↔ cmd = "exit".toList)
        ∧ (fn = "lsh_launch" ↔ ∀ name ∈ builtin_str, cmd ≠ name.toList))
    ∧ (env.fork w = .child → env.execvp w (some cmd) (cmd :: rest) = none →
        lsh_launch env (cmd :: rest) w
          = .replaced (some cmd) (cmd :: rest) { w with trace := w.trace ++
              [.enter "lsh_launch" (cmd :: rest), .fork,
               .execvp (some cmd) (cmd :: rest)] })
    ∧ (∀ errno, env.fork w = .child → env.execvp w (some cmd) (cmd :: rest) = some errno →
        lsh_launch env (cmd :: rest) w
          = .exited EXIT_FAILURE { w with
              stderr := w.stderr ++ ["lsh: " ++ env.strerror errno ++ "\n"],
              trace := w.trace ++
                [.enter "lsh_launch" (cmd :: rest), .fork,
                 .execvp (some cmd) (cmd :: rest)] })
    ∧ (∀ name ∈ builtin_str,
        "CD".toList ≠ name.toList ∧ "Exit".toList ≠ name.toList
          ∧ "cdx".toList ≠ name.toList) := by
  refine ⟨?_, ?_, ?_, ?_, ?_, ?_⟩
  · intro i name func hn hf hc
    rw [lsh_execute_cons]
    rcases i with _ | _ | _ | i
    · have h1 : name = "cd" := by simpa [builtin_str] using hn.symm
      have h2 : func = lsh_cd := by simpa [builtin_func] using hf.symm
      rw [hc, h1, h2, if_pos rfl]
    · have h1 : name = "help" := by simpa [builtin_str] using hn.symm
      have h2 : func = lsh_help := by simpa [builtin_func] using hf.symm
      rw [hc, h1, h2, if_neg (by decide), if_pos rfl]
    · have h1 : name = "exit" := by simpa [builtin_str] using hn.symm
      have h2 : func = lsh_exit := by simpa [builtin_func] using hf.symm
      rw [hc, h1, h2, if_neg (by decide), if_neg (by decide), if_pos rfl]
    · simp [builtin_str] at hn
  · intro hno
    obtain ⟨h1, h2, h3⟩ := (not_builtin_iff cmd).mp hno
    rw [lsh_execute_cons, if_neg h1, if_neg h2, if_neg h3]
  · rw [lsh_execute_cons, not_builtin_iff]
    by_cases h1 : cmd = "cd".toList
    · obtain ⟨w1, tail, h2, _, h3, h4⟩ := lsh_cd_trace env (cmd :: rest) w
      refine ⟨w1, "lsh_cd", tail, ?_, h3, h4, ?_, ?_, ?_, ?_⟩
      · rw [if_pos h1, h2]; rfl
      · simp [h1]
      · rw [h1]; decide
      · rw [h1]; decide
      · rw [h1]; decide
    · by_cases h2 : cmd = "help".toList
      · obtain ⟨w1, h3, _, h4⟩ := lsh_help_trace env (cmd :: rest) w
        refine ⟨w1, "lsh_help", [], ?_, h4, rfl, ?_, ?_, ?_, ?_⟩
        · rw [if_neg h1, if_pos h2, h3]; rfl
        · rw [h2]; decide
        · simp [h2]
        · rw [h2]; decide
        · rw [h2]; decide
      · by_cases h3 : cmd = "exit".toList
        · refine ⟨w.log (.enter "lsh_exit" (cmd :: rest)), "lsh_exit", [], ?_, rfl, rfl,
            ?_, ?_, ?_, ?_⟩
          · rw [if_neg h1, if_neg h2, if_pos h3]; rfl
          · rw [h3]; decide
          · rw [h3]; decide
          · simp [h3]
          · rw [h3]; decide
        · obtain ⟨w1, tail, h4, h5, h6⟩ := lsh_launch_trace env (cmd :: rest) w
          refine ⟨w1, "lsh_launch", tail, ?_, h5, h6, ?_, ?_, ?_, ?_⟩
          · rw [if_neg h1, if_neg h2, if_neg h3, h4]
          · exact ⟨fun h => absurd h (by decide), fun h => absurd h h1⟩
          · exact ⟨fun h => absurd h (by decide), fun h => absurd h h2⟩
          · exact ⟨fun h => absurd h (by decide), fun h => absurd h h3⟩
          · exact ⟨fun _ => ⟨h1, h2, h3⟩, fun _ => rfl⟩
  · intro hf he
    unfold lsh_launch
    rw [hf]
    simp only [List.head?_cons]
    rw [he]
    simp [World.log]
  · intro errno hf he
    unfold lsh_launch
    rw [hf]
    simp only [List.head?_cons]
    rw [he]
    simp [World.log, World.perror, World.eprintf]
  · decide

/-- C4 on `ls -l` in the child with the program present, on `CD /tmp` in the interpreter (the
launcher, not the handler of `cd`), and on `exit now` (the handler of `exit`). -/
theorem C4_dispatch_witness :
    lsh_execute { absentEnv with fork := fun _ => .child, execvp := fun _ _ _ => none }
        ["ls".toList, "-l".toList] (freshWorld [])
      = .replaced (some "ls".toList) ["ls".toList, "-l".toList]
          { freshWorld [] with trace :=
              [.enter "lsh_launch" ["ls".toList, "-l".toList], .fork,
               .execvp (some "ls".toList) ["ls".toList, "-l".toList]] }
    ∧ lsh_execute absentEnv ["CD".toList, "/tmp".toList] (freshWorld [])
      = lsh_launch absentEnv ["CD".toList, "/tmp".toList] (freshWorld [])
    ∧ lsh_execute absentEnv ["exit".toList, "now".toList] (freshWorld [])
      = lsh_exit absentEnv ["exit".toList, "now".toList] (freshWorld []) := by
  refine ⟨?_, ?_, ?_⟩
  · have h := C4_dispatch
      { absentEnv with fork := fun _ => .child, execvp := fun _ _ _ => none }
      "ls".toList ["-l".toList] (freshWorld [])
    rw [h.2.1 (by decide)]
    exact h.2.2.2.1 rfl rfl
  · exact (C4_dispatch absentEnv "CD".toList ["/tmp".toList] (freshWorld [])).2.1 (by decide)
  · exact (C4_dispatch absentEnv "exit".toList ["now".toList] (freshWorld [])).1 2 "exit"
      lsh_exit rfl rfl rfl

/-! ## Interpreter loop -/

/-- One iteration on a first line below the limit: the line is read, split and dispatched, and
the signal decides between running and stopped. -/
theorem lsh_loop_body_eq (env : Env) (w : World)
    (hshort : (firstLine (env.unread (w.printf "> "))).length < LINE_LIMIT) :
    lsh_loop_body env w
      = match lsh_execute env (lineTokens (env.unread (w.printf "> ")))
            { w.printf "> " with stdin := afterLine (env.unread (w.printf "> ")) } with
        | .returned status w4 => if status ≠ 0 then .running w4 else .stopped w4
        | o => .left o := by
  obtain ⟨buffer, h1, _, _, h4⟩ :=
    lsh_read_line_spec env.junkChar (env.unread (w.printf "> ")) hshort
  obtain ⟨cells, h5, _, _, h8⟩ := lsh_split_line_spec env.junkPtr buffer
  have htok : nullTerminated cells = lineTokens (env.unread (w.printf "> ")) := by
    rw [h8, h4]; rfl
  unfold lsh_loop_body
  have hflush : (flush (w.printf "> ")).2 = w.printf "> " := rfl
  simp only [hflush, h1, h5, htok]

/-- One iteration on a first line of `LINE_LIMIT` characters or more: the process ends with an
allocation error. -/
theorem lsh_loop_body_overflow (env : Env) (w : World)
    (hlong : LINE_LIMIT ≤ (firstLine (env.unread (w.printf "> "))).length) :
    lsh_loop_body env w
      = .left (.exited EXIT_FAILURE
          ({ w.printf "> " with stdin := (env.unread (w.printf "> ")).drop LINE_LIMIT }.eprintf
            "lsh: allocation error\n")) := by
  have h1 := lsh_read_line_overflow env.junkChar (env.unread (w.printf "> ")) hlong
  unfold lsh_loop_body
  have hflush : (flush (w.printf "> ")).2 = w.printf "> " := rfl
  simp only [hflush, h1]

/-- One iteration in the interpreter, when the wait of every launched child ends and the
unread input is what the interpreter left: the first line of the input is consumed, and the
loop stops exactly when its first token is `exit`. -/
theorem lsh_loop_body_spec (env : Env) (w : World)
    (hfork : ∀ w1, (env.fork w1).completes = true)
    (hinput : ∀ w1, env.unread w1 = w1.stdin)
    (hshort : (firstLine w.stdin).length < LINE_LIMIT) :
    ∃ w1, w1.stdin = afterLine w.stdin
      ∧ lsh_loop_body env w
          = if (lineTokens w.stdin).head? = some "exit".toList then .stopped w1
            else .running w1 := by
  have hun : env.unread (w.printf "> ") = w.stdin := hinput _
  have hbody := lsh_loop_body_eq env w (by rw [hun]; exact hshort)
  rw [hun] at hbody
  obtain ⟨w1, h9, h10⟩ := lsh_execute_completes env (lineTokens w.stdin)
    { w.printf "> " with stdin := afterLine w.stdin } (hfork _)
  refine ⟨w1, h10, ?_⟩
  rw [hbody, h9]
  by_cases he : (lineTokens w.stdin).head? = some "exit".toList <;> simp [he]

theorem lsh_loop_stopped (env : Env) (n : Nat) (w : World) :
    lsh_loop env n (.stopped w) = .stopped w := by
  induction n with
  | zero => rfl
  | succ n ih => simpa [lsh_loop, lsh_loop_step] using ih

theorem lsh_loop_left (env : Env) (n : Nat) (o : Outcome) :
    lsh_loop env n (.left o) = .left o := by
  induction n with
  | zero => rfl
  | succ n ih => simpa [lsh_loop, lsh_loop_step] using ih

theorem lsh_loop_add (env : Env) (m n : Nat) (s : LoopState) :
    lsh_loop env (m + n) s = lsh_loop env n (lsh_loop env m s) := by
  induction m generalizing s with
  | zero => simp [lsh_loop]
  | succ m ih =>
    rw [Nat.succ_add]
    simp only [lsh_loop]
    exact ih _

theorem lsh_loop_succ (env : Env) (n : Nat) (w : World) :
    lsh_loop env (n + 1) (.running w) = lsh_loop env n (lsh_loop_body env w) := rfl

theorem afterLine_iterate_nil (n : Nat) : afterLine^[n] [] = [] := by
  induction n with
  | zero => rfl
  | succ n ih => rw [Function.iterate_succ_apply, afterLine_nil, ih]

/-- After `k` iterations over lines that are below the limit and do not start with `exit` the
interpreter is running and has consumed exactly these lines. -/
theorem lsh_loop_running (env : Env) (hfork : ∀ w1, (env.fork w1).completes = true)
    (hinput : ∀ w1, env.unread w1 = w1.stdin) :
    ∀ (k : Nat) (w : World),
      (∀ j < k, (firstLine (afterLine^[j] w.stdin)).length < LINE_LIMIT) →
      (∀ j < k, (lineTokens (afterLine^[j] w.stdin)).head? ≠ some "exit".toList) →
      ∃ w1, lsh_loop env k (.running w) = .running w1 ∧ w1.stdin = afterLine^[k] w.stdin := by
  intro k
  induction k with
  | zero => intro w _ _; exact ⟨w, rfl, rfl⟩
  | succ k ih =>
    intro w hshort hno
    obtain ⟨w1, h1, h2⟩ := lsh_loop_body_spec env w hfork hinput (hshort 0 (Nat.succ_pos k))
    have h0 : (lineTokens w.stdin).head? ≠ some "exit".toList := hno 0 (Nat.succ_pos k)
    rw [if_neg h0] at h2
    obtain ⟨w2, h3, h4⟩ := ih w1
      (by
        intro j hj
        rw [h1, ← Function.iterate_succ_apply]
        exact hshort (j + 1) (Nat.succ_lt_succ hj))
      (by
        intro j hj
        rw [h1, ← Function.iterate_succ_apply]
        exact hno (j + 1) (Nat.succ_lt_succ hj))
    refine ⟨w2, ?_, ?_⟩
    · rw [lsh_loop_succ, h2]
      exact h3
    · rw [h4, h1, ← Function.iterate_succ_apply]

/-- C5, as the code has it: in the interpreter, when the wait of every launched child ends,
when no launched child changes the unread input, and when the lines read have fewer than
2^31 - 1024 characters each: if none of the first `k` lines has `exit` as first token,
`lsh_loop` is still running after each of the first `k` iterations and has read exactly one
line per iteration; if the next line has `exit` as first token it is stopped after `k + 1`
iterations, stays so, and the input after that line is unread.  On an exhausted input an
iteration writes the prompt and changes nothing else, and all further lines are empty.  The
tokens of a line are those of the string that the reader returns for it. -/
theorem C5_loop_stops_at_first_exit (env : Env) (w : World) (k : Nat)
    (hfork : ∀ w1, (env.fork w1).completes = true)
    (hinput : ∀ w1, env.unread w1 = w1.stdin)
    (hshort : ∀ j ≤ k, (firstLine (afterLine^[j] w.stdin)).length < LINE_LIMIT)
    (hbefore : ∀ j < k, (lineTokens (afterLine^[j] w.stdin)).head? ≠ some "exit".toList) :
    (∀ j ≤ k, ∃ w1, lsh_loop env j (.running w) = .running w1
        ∧ w1.stdin = afterLine^[j] w.stdin)
    ∧ ((lineTokens (afterLine^[k] w.stdin)).head? = some "exit".toList →
        ∃ w2, lsh_loop env (k + 1) (.running w) = .stopped w2
          ∧ w2.stdin = afterLine^[k + 1] w.stdin
          ∧ ∀ n, lsh_loop env (k + 1 + n) (.running w) = .stopped w2)
    ∧ (∀ w0 : World, w0.stdin = [] → lsh_loop_body env w0 = .running (w0.printf "> "))
    ∧ (∀ n, afterLine^[n] [] = [] ∧ lineTokens (afterLine^[n] []) = []) := by
  have hrun : ∀ j ≤ k, ∃ w1, lsh_loop env j (.running w) = .running w1
      ∧ w1.stdin = afterLine^[j] w.stdin := by
    intro j hj
    exact lsh_loop_running env hfork hinput j w
      (fun i hi => hshort i (Nat.le_of_lt (Nat.lt_of_lt_of_le hi hj)))
      (fun i hi => hbefore i (Nat.lt_of_lt_of_le hi hj))
  obtain ⟨w1, h1, h2⟩ := hrun k (Nat.le_refl k)
  refine ⟨hrun, ?_, ?_, ?_⟩
  · intro hexit
    obtain ⟨w2, h3, h4⟩ := lsh_loop_body_spec env w1 hfork hinput
      (by rw [h2]; exact hshort k (Nat.le_refl k))
    rw [h2, if_pos hexit] at h4
    have hstop : lsh_loop env (k + 1) (.running w) = .stopped w2 := by
      rw [lsh_loop_add, h1]
      simp only [lsh_loop, lsh_loop_step, h4]
    refine ⟨w2, hstop, ?_, ?_⟩
    · rw [h3, h2]
      exact (Function.iterate_succ_apply' afterLine k w.stdin).symm
    · intro n
      rw [lsh_loop_add, hstop, lsh_loop_stopped]
  · intro w0 h0
    have hun : env.unread (w0.printf "> ") = [] := by
      rw [hinput]; exact h0
    have hbody := lsh_loop_body_eq env w0
      (by rw [hun, firstLine_nil, List.length_nil]; unfold LINE_LIMIT; omega)
    rw [hbody, hun]
    have htok : lineTokens [] = [] := rfl
    rw [htok, afterLine_nil]
    simp only [lsh_execute]
    simp [World.printf, h0]
  · intro n
    rw [afterLine_iterate_nil]
    exact ⟨rfl, rfl⟩

/-- C5 on an input whose first line names an absent program and whose second line is `exit`:
the interpreter is running after one iteration and stopped after two, and the input after the
second line is unread. -/
theorem C5_loop_stops_at_first_exit_witness :
    (∀ w1, (absentEnv.fork w1).completes = true)
    ∧ (∀ w1, absentEnv.unread w1 = w1.stdin)
    ∧ (∃ w1, lsh_loop absentEnv 1
          (.running (freshWorld "this-program-does-not-exist-xyz\nexit\nls".toList))
        = .running w1 ∧ w1.stdin = "exit\nls".toList)
    ∧ (∃ w2, lsh_loop absentEnv 2
          (.running (freshWorld "this-program-does-not-exist-xyz\nexit\nls".toList))
        = .stopped w2 ∧ w2.stdin = "ls".toList) := by
  have hfork : ∀ w1, (absentEnv.fork w1).completes = true := fun _ => rfl
  have hinput : ∀ w1, absentEnv.unread w1 = w1.stdin := fun _ => rfl
  have hlen0 : (firstLine (afterLine^[0]
      "this-program-does-not-exist-xyz\nexit\nls".toList)).length = 31 := by decide
  have hlen1 : (firstLine (afterLine^[1]
      "this-program-does-not-exist-xyz\nexit\nls".toList)).length = 4 := by decide
  have h := C5_loop_stops_at_first_exit absentEnv
    (freshWorld "this-program-does-not-exist-xyz\nexit\nls".toList) 1 hfork hinput
    (by
      intro j hj
      have hj01 : j = 0 ∨ j = 1 := by omega
      rcases hj01 with h0 | h1
      · subst h0
        show (firstLine (afterLine^[0]
          "this-program-does-not-exist-xyz\nexit\nls".toList)).length < LINE_LIMIT
        rw [hlen0]; unfold LINE_LIMIT; omega
      · subst h1
        show (firstLine (afterLine^[1]
          "this-program-does-not-exist-xyz\nexit\nls".toList)).length < LINE_LIMIT
        rw [hlen1]; unfold LINE_LIMIT; omega)
    (by
      intro j hj
      have hj0 : j = 0 := by omega
      subst hj0
      decide)
  refine ⟨hfork, hinput, ?_, ?_⟩
  · obtain ⟨w1, h1, h2⟩ := h.1 1 (Nat.le_refl 1)
    exact ⟨w1, h1, h2.trans (by decide)⟩
  · obtain ⟨w2, h1, h2, _⟩ := h.2.1 (by decide)
    exact ⟨w2, h1, h2.trans (by decide)⟩

/-- C5 as stated fails in two ways.  A launched program shares the input: when the first line
launches a program that reads the input to its end, the second line `exit` never reaches the
interpreter, which is still running after two and after three iterations.  And a line of
2^31 - 1024 characters before the line `exit` ends the process with an allocation
error in the first iteration. -/
theorem C5_counterexample :
    ((lineTokens "cat\nexit\n".toList).head? ≠ some "exit".toList
      ∧ (lineTokens (afterLine "cat\nexit\n".toList)).head? = some "exit".toList
      ∧ (∃ w2, lsh_loop greedyEnv 2 (.running (freshWorld "cat\nexit\n".toList))
            = .running w2 ∧ w2.stdin = [])
      ∧ (∃ w3, lsh_loop greedyEnv 3 (.running (freshWorld "cat\nexit\n".toList))
            = .running w3 ∧ w3.stdin = []))
    ∧ ((lineTokens (afterLine (List.replicate LINE_LIMIT 'x' ++ "\nexit\n".toList))).head?
          = some "exit".toList
      ∧ ∃ w1, lsh_loop absentEnv 2
          (.running (freshWorld (List.replicate LINE_LIMIT 'x' ++ "\nexit\n".toList)))
            = .left (.exited EXIT_FAILURE w1)
          ∧ w1.stderr = ["lsh: allocation error\n"]) := by
  constructor
  · have hsmall : ∀ l : List Char, l.length ≤ 9 → (firstLine l).length < LINE_LIMIT := by
      intro l hl
      have h1 : (firstLine l).length ≤ l.length := by
        rcases firstLine_afterLine l with h | ⟨_, h, _⟩
        · conv_rhs => rw [h]
          simp
        · rw [h]
      unfold LINE_LIMIT
      omega
    -- first iteration: `cat` is launched and leaves nothing to read
    have hb1 := lsh_loop_body_eq greedyEnv (freshWorld "cat\nexit\n".toList)
      (hsmall _ (by decide))
    have hu1 : greedyEnv.unread ((freshWorld "cat\nexit\n".toList).printf "> ")
        = "cat\nexit\n".toList := rfl
    have ht1 : lineTokens "cat\nexit\n".toList = ["cat".toList] := by decide
    rw [hu1, ht1] at hb1
    have he1 : lsh_execute greedyEnv ["cat".toList]
        { (freshWorld "cat\nexit\n".toList).printf "> " with
            stdin := afterLine "cat\nexit\n".toList }
        = .returned 1
          { stdin := "exit\n".toList, stdout := ["> "], stderr := [], cwd := "/".toList,
            trace := [.enter "lsh_launch" ["cat".toList], .fork,
              .waitpid 7 (some (.exited 0))] } := by
      rw [lsh_execute_cons, if_neg (by decide), if_neg (by decide), if_neg (by decide)]
      rfl
    rw [he1] at hb1
    simp only [ne_eq, one_ne_zero, not_false_eq_true, if_true] at hb1
    -- second iteration: the input is exhausted
    have hb2 := lsh_loop_body_eq greedyEnv
      { stdin := "exit\n".toList, stdout := ["> "], stderr := [], cwd := "/".toList,
        trace := [.enter "lsh_launch" ["cat".toList], .fork,
          .waitpid 7 (some (.exited 0))] }
      (hsmall _ (by decide))
    have hu2 : greedyEnv.unread (World.printf
        { stdin := "exit\n".toList, stdout := ["> "], stderr := [], cwd := "/".toList,
          trace := [.enter "lsh_launch" ["cat".toList], .fork,
            .waitpid 7 (some (.exited 0))] } "> ") = [] := rfl
    rw [hu2] at hb2
    have hb2a : lsh_loop_body greedyEnv
        { stdin := "exit\n".toList, stdout := ["> "], stderr := [], cwd := "/".toList,
          trace := [.enter "lsh_launch" ["cat".toList], .fork,
            .waitpid 7 (some (.exited 0))] }
        = .running
          { stdin := [], stdout := ["> ", "> "], stderr := [], cwd := "/".toList,
            trace := [.enter "lsh_launch" ["cat".toList], .fork,
              .waitpid 7 (some (.exited 0))] } := by
      rw [hb2]
      rfl
    -- third iteration: the same
    have hb3 := lsh_loop_body_eq greedyEnv
      { stdin := [], stdout := ["> ", "> "], stderr := [], cwd := "/".toList,
        trace := [.enter "lsh_launch" ["cat".toList], .fork,
          .waitpid 7 (some (.exited 0))] }
      (hsmall _ (by decide))
    have hu3 : greedyEnv.unread (World.printf
        { stdin := [], stdout := ["> ", "> "], stderr := [], cwd := "/".toList,
          trace := [.enter "lsh_launch" ["cat".toList], .fork,
            .waitpid 7 (some (.exited 0))] } "> ") = [] := rfl
    rw [hu3] at hb3
    have hb3a : lsh_loop_body greedyEnv
        { stdin := [], stdout := ["> ", "> "], stderr := [], cwd := "/".toList,
          trace := [.enter "lsh_launch" ["cat".toList], .fork,
            .waitpid 7 (some (.exited 0))] }
        = .running
          { stdin := [], stdout := ["> ", "> ", "> "], stderr := [], cwd := "/".toList,
            trace := [.enter "lsh_launch" ["cat".toList], .fork,
              .waitpid 7 (some (.exited 0))] } := by
      rw [hb3]
      rfl
    refine ⟨by decide, by decide,
      ⟨{ stdin := [], stdout := ["> ", "> "], stderr := [], cwd := "/".toList,
         trace := [.enter "lsh_launch" ["cat".toList], .fork,
           .waitpid 7 (some (.exited 0))] }, ?_, rfl⟩,
      ⟨{ stdin := [], stdout := ["> ", "> ", "> "], stderr := [], cwd := "/".toList,
         trace := [.enter "lsh_launch" ["cat".toList], .fork,
           .waitpid 7 (some (.exited 0))] }, ?_, rfl⟩⟩
    · rw [lsh_loop_succ, hb1, lsh_loop_succ, hb2a]
      rfl
    · rw [lsh_loop_succ, hb1, lsh_loop_succ, hb2a, lsh_loop_succ, hb3a]
      rfl
  · have hl : '\n' ∉ List.replicate LINE_LIMIT 'x' := by
      intro h
      exact absurd (List.eq_of_mem_replicate h) (by decide)
    have hf := firstLine_append_LF (List.replicate LINE_LIMIT 'x') "exit\n".toList hl
    have hun : absentEnv.unread
        ((freshWorld (List.replicate LINE_LIMIT 'x' ++ "\nexit\n".toList)).printf "> ")
        = List.replicate LINE_LIMIT 'x' ++ '\n' :: "exit\n".toList := rfl
    have hb := lsh_loop_body_overflow absentEnv
      (freshWorld (List.replicate LINE_LIMIT 'x' ++ "\nexit\n".toList))
      (by rw [hun, hf.1, List.length_replicate])
    have hloop := lsh_loop_succ absentEnv 1
      (freshWorld (List.replicate LINE_LIMIT 'x' ++ "\nexit\n".toList))
    rw [hb, lsh_loop_left] at hloop
    refine ⟨?_, _, hloop, rfl⟩
    show (lineTokens (afterLine (List.replicate LINE_LIMIT 'x' ++ '\n' :: "exit\n".toList))).head?
      = some "exit".toList
    rw [hf.2]
    decide

end Lsh
